import Mathlib

/-!
Shallow embedding of the Chebyshev polynomial filter from
`EleChASE/include/filter.hpp` (the `filter` template function), together with
proofs of the behavioural properties claimed of it.

Modelling conventions:
* Matrix entries are exact rationals (`ℚ`); the C++ code instantiates the
  template at `double` / `Complex<double>`.  All scalar formulas are carried
  over verbatim; division is ℚ's total division.
* A distributed `DistMatrix` is modelled as a total function from
  (row, column) to its entry (`Mat`), with its dimensions passed separately
  (`N` for the square operator `A`, `VH × VW` and `WH × WW` for the vector
  blocks `V` and `W`).  Entries outside the stored extent are carried along
  unchanged, which makes frame properties directly expressible.
* `Hemm(LEFT, uplo, alpha, A, B, beta, C)` is modelled by its mathematical
  semantics `C ← alpha·A·B + beta·C` on the viewed column range; `uplo` only
  selects which stored triangle of the Hermitian operator is read, so it does
  not appear in the semantics (it is kept as an argument for faithfulness).
* The `degrees` array together with its length `deglen` is modelled as an
  `Option (List Int)`; `deglen` is the list length (the spec precondition
  "if degrees is non-null it has length deglen").
* The out-of-bounds read `degrees[deglen-1]` that occurs when `degrees` is
  non-null and `deglen = 0` has no defined result in C++; the embedding makes
  the fallible read explicit via `Option` (`degmaxOf` returns `none`, and the
  whole call returns `FilterOut.oobDegrees`).
* `AssertValidSubmatrix` throws `std::logic_error` on failure; the embedding
  returns the `FilterOut.assertFail` outcome carrying the (already shifted)
  state of `A` at the throw point, as visible to a caller that catches it.
* `std::isnan` applied to a finite real value is `false`; exact rational
  arithmetic produces no NaNs, so `isnanQ` is constantly `false`.  The scan
  blocks guarded by `#ifdef SEARCH_NAN` are still modelled (including their
  abort outcome `FilterOut.nanAbort`), and the number of executed scan blocks
  is reported in the result so that the instrumentation is observable.
-/

namespace EleChase

/-- Matrices (and matrix views) are total functions from (row, column) to an
exact rational entry. -/
abbrev Mat := Int → Int → ℚ

/-- Row `r` of the product of the `N × N` operator `A` with the single column
vector `v` : the sum over `k < N` of `A r k * v k`. -/
def matColEntry (N : Nat) (A : Mat) (v : Int → ℚ) (r : Int) : ℚ :=
  ∑ k ∈ Finset.range N, A r (k : Int) * v (k : Int)

/-- Entry `(r, c)` of the product of the `N × N` operator `A` with the matrix
`S` (only column `c` of `S` is read). -/
def matMulEntry (N : Nat) (A S : Mat) (r c : Int) : ℚ :=
  matColEntry N A (fun x => S x c) r

/-- Semantics of `Hemm(LEFT, uplo, alpha, A, S_view, beta, D_view)` where the
views select rows `[0, N)` and columns `[s, s+w)` of `S` and `D` : inside the
view the destination becomes `alpha·A·S + beta·D`, outside it is untouched. -/
def hemmView (N : Nat) (alpha : ℚ) (A S : Mat) (beta : ℚ) (D : Mat)
    (s w : Int) : Mat :=
  fun r c =>
    if 0 ≤ r ∧ r < (N : Int) ∧ s ≤ c ∧ c < s + w then
      alpha * matMulEntry N A S r c + beta * D r c
    else D r c

/-- Semantics of the view assignment `W_view = V_view` over rows `[0, N)` and
columns `[s, s+w)` : copy the source into the destination there. -/
def copyView (N : Nat) (S D : Mat) (s w : Int) : Mat :=
  fun r c =>
    if 0 ≤ r ∧ r < (N : Int) ∧ s ≤ c ∧ c < s + w then S r c
    else D r c

/-- Semantics of `GetDiagonal(A)` : the diagonal as a vector. -/
def getDiag (A : Mat) : Int → ℚ := fun i => A i i

/-- Semantics of `ShiftDiagonal(A, t)` on the `N × N` operator :
add `t` to every diagonal entry in place. -/
def shiftDiag (N : Nat) (A : Mat) (t : ℚ) : Mat :=
  fun r c => if r = c ∧ 0 ≤ r ∧ r < (N : Int) then A r c + t else A r c

/-- Semantics of `SetDiagonal(A, T)` on the `N × N` operator :
overwrite every diagonal entry with the saved vector `T`. -/
def setDiag (N : Nat) (A : Mat) (T : Int → ℚ) : Mat :=
  fun r c => if r = c ∧ 0 ≤ r ∧ r < (N : Int) then T r else A r c

/-- Model of `std::isnan` on a real value : exact rational arithmetic never
produces a NaN, so this is constantly `false`. -/
def isnanQ (_ : ℚ) : Bool := false

/-- Semantics of `EntrywiseNorm(M, 1)` for a matrix of extent `H × Wd` :
the sum of the absolute values of all stored entries. -/
def entrywiseNorm1 (H Wd : Int) (M : Mat) : ℚ :=
  ∑ r ∈ Finset.range H.toNat, ∑ c ∈ Finset.range Wd.toNat, |M (r : Int) (c : Int)|

/-- Success condition of `X.AssertValidSubmatrix(0, 0, N, sw)` for a matrix of
extent `H × Wd` : the requested submatrix extent must be non-negative and lie
inside the matrix. -/
def validSubB (H Wd : Int) (N : Nat) (sw : Int) : Bool :=
  (0 ≤ sw) && ((N : Int) ≤ H) && (sw ≤ Wd)

/-- Model of the scan loop `while (j < deglen && degrees[j] == i) ++j` started
at the head of the remaining schedule : the length of the longest prefix of
consecutive entries equal to `i`. -/
def takeCount (i : Int) : List Int → Nat
  | [] => 0
  | d :: tl => if d = i then takeCount i tl + 1 else 0

/-- Model of the `degmax` computation (filter.hpp lines 80–82):
`degmax = deg` when `degrees == NULL`, otherwise
`degmax = (deg >= degrees[deglen-1]) ? deg : degrees[deglen-1]`.
The read `degrees[deglen-1]` is out of bounds when `deglen = 0`; the model
returns `none` for that undefined access. -/
def degmaxOf (deg : Int) (degrees : Option (List Int)) : Option Int :=
  match degrees with
  | none => some deg
  | some ds =>
    match ds.get? (ds.length - 1) with
    | none => none
    | some last => some (if deg ≥ last then deg else last)

/-- State of the main filtering loop (filter.hpp lines 169–214): the two
vector blocks, the active range `[start, start+width)`, the schedule cursor
`j`, the recurrence parameter `sigma`, and the running cost metric
`total_vcts_filtered`. -/
structure LoopSt where
  V : Mat
  W : Mat
  start : Int
  width : Int
  j : Nat
  sigma : ℚ
  total : Int

/-- One iteration of the main loop at loop counter `i` (filter.hpp lines
169–214): compute `sigma_new`, `alpha`, `beta`; apply the shifted operator
into `V` (when `i` is even) or into `W` (when `i` is odd) over the active
range; accumulate the cost metric; then, when a degree schedule is present,
deflate the vectors whose scheduled degree equals `i`, copying them from `V`
into `W` when the destination of this iteration was `V`. -/
def filterIter (N : Nat) (A : Mat) (degrees : Option (List Int))
    (sigma_scale e : ℚ) (i : Int) (st : LoopSt) : LoopSt :=
  let sigma_new : ℚ := 1/(2/sigma_scale - st.sigma)
  let alpha : ℚ := 2*sigma_new/e
  let beta : ℚ := -(st.sigma*sigma_new)
  let st1 : LoopSt :=
    if i % 2 = 0 then
      { st with V := hemmView N alpha A st.W beta st.V st.start st.width }
    else
      { st with W := hemmView N alpha A st.V beta st.W st.start st.width }
  let st2 : LoopSt := { st1 with total := st1.total + st1.width, sigma := sigma_new }
  match degrees with
  | none => st2
  | some ds =>
    let l : Nat := takeCount i (ds.drop st2.j)
    let st3 : LoopSt := { st2 with width := st2.width - (l : Int), j := st2.j + l }
    let st4 : LoopSt :=
      if i % 2 = 0 ∧ 0 < l then
        { st3 with W := copyView N st3.V st3.W st3.start (l : Int) }
      else st3
    { st4 with start := st4.start + (l : Int) }

/-- The main loop `for (int i = 2; i <= degmax; ++i)` run for `fuel`
iterations starting at loop counter `i`. -/
def filterLoop (N : Nat) (A : Mat) (degrees : Option (List Int))
    (sigma_scale e : ℚ) : Nat → Int → LoopSt → LoopSt
  | 0, _, st => st
  | fuel+1, i, st =>
      filterLoop N A degrees sigma_scale e fuel (i+1)
        (filterIter N A degrees sigma_scale e i st)

/-- Result of a completed `filter` call: the returned cost metric
`total_vcts_filtered`, the final contents of `A`, `V` and `W`, and the number
of NaN-scan blocks that were executed. -/
structure FilterResult where
  ret : Int
  A : Mat
  V : Mat
  W : Mat
  scans : Nat

/-- Outcome of a `filter` call: normal return, the undefined out-of-bounds
read of `degrees[deglen-1]`, the `std::logic_error` thrown by
`AssertValidSubmatrix` (carrying the state of the borrowed matrices at the
throw point), or the whole-job abort of the NaN scan. -/
inductive FilterOut where
  | ok (res : FilterResult)
  | oobDegrees
  | assertFail (A V W : Mat)
  | nanAbort

/-- Whether the call returned normally. -/
def FilterOut.isOk : FilterOut → Bool
  | .ok _ => true
  | _ => false

/-- The returned cost metric of a normal return (0 otherwise). -/
def FilterOut.getRet : FilterOut → Int
  | .ok res => res.ret
  | _ => 0

/-- The final operator of a normal return. -/
def FilterOut.getA : FilterOut → Mat
  | .ok res => res.A
  | _ => fun _ _ => 0

/-- The final first vector block of a normal return. -/
def FilterOut.getV : FilterOut → Mat
  | .ok res => res.V
  | _ => fun _ _ => 0

/-- The final second (output) vector block of a normal return. -/
def FilterOut.getW : FilterOut → Mat
  | .ok res => res.W
  | _ => fun _ _ => 0

/-- The number of NaN-scan blocks executed on a normal return. -/
def FilterOut.getScans : FilterOut → Nat
  | .ok res => res.scans
  | _ => 0

/-- The value of the `SEARCH_NAN` configuration macro in the shipped source:
filter.hpp line 17 is `#define SEARCH_NAN 1`, so the macro is defined (the
scan blocks are compiled in) by default. -/
def SEARCH_NAN_defined : Bool := true

set_option linter.unusedVariables false in
/-- Shallow embedding of `filter` (filter.hpp lines 52–229).  `N` is
`A.Height()`; `VH VW WH WW` are the extents of `V` and `W`; `searchNan`
states whether the `SEARCH_NAN` macro is defined (`SEARCH_NAN_defined` in the
shipped source); `degrees` together with its implicit length `deglen =
degrees.length` models the schedule array. -/
def filter (uplo : Bool) (N : Nat) (A V W : Mat) (VH VW WH WW : Int)
    (start width deg : Int) (degrees : Option (List Int))
    (lambda lower upper : ℚ) (searchNan : Bool) : FilterOut :=
  let c : ℚ := (upper + lower)/2
  let e : ℚ := (upper - lower)/2
  let sigma_scale : ℚ := e/(lambda - c)
  match degmaxOf deg degrees with
  | none => FilterOut.oobDegrees
  | some degmax =>
    if degmax = 0 then FilterOut.ok ⟨0, A, V, W, 0⟩ else
    -- auto T = GetDiagonal(A); ShiftDiagonal(A, -c);
    let T := getDiag A
    let A1 := shiftDiag N A (-c)
    if ¬ (validSubB VH VW N (start+width) = true ∧
          validSubB WH WW N (start+width) = true) then
      FilterOut.assertFail A1 V W
    else
      -- first SEARCH_NAN block (before the first multiply)
      if searchNan && (isnanQ (entrywiseNorm1 VH VW V) ||
          isnanQ (entrywiseNorm1 WH WW W) ||
          isnanQ (entrywiseNorm1 (N : Int) (N : Int) A1)) then
        FilterOut.nanAbort
      else
        -- first filtering step
        let alpha : ℚ := sigma_scale/e
        let W1 := hemmView N alpha A1 V 0 W start width
        -- second SEARCH_NAN block (after the first multiply)
        if searchNan && (isnanQ (entrywiseNorm1 VH VW V) ||
            isnanQ (entrywiseNorm1 WH WW W1) ||
            isnanQ (entrywiseNorm1 (N : Int) (N : Int) A1)) then
          FilterOut.nanAbort
        else
          let scans : Nat := (if searchNan then 1 else 0) + (if searchNan then 1 else 0)
          -- those that had degrees[j] = 1 are now filtered
          let j0 : Nat := match degrees with
            | none => 0
            | some ds => takeCount 1 ds
          let st0 : LoopSt := ⟨V, W1, start + (j0 : Int), width - (j0 : Int),
            j0, sigma_scale, width⟩
          -- remaining filtering steps
          let stF := filterLoop N A1 degrees sigma_scale e (degmax - 1).toNat 2 st0
          -- if the filtered vectors are not in W, copy them there
          let W2 := if degmax % 2 = 0 then
              copyView N stF.V stF.W stF.start stF.width
            else stF.W
          -- A = A + cI  (by restoring the saved diagonal)
          let A2 := setDiag N A1 T
          FilterOut.ok ⟨stF.total, A2, stF.V, W2, scans⟩

/-- The recurrence parameter sequence of the filter: `sigmaChase ss m` is the
value `sigma` holds after `m` updates, i.e. the `σ_(m+1)` of the three-term
recurrence (`σ_1 = sigma_scale`, `σ_(i+1) = 1/(2/sigma_scale − σ_i)`). -/
def sigmaChase (ss : ℚ) : Nat → ℚ
  | 0 => ss
  | m+1 => 1/(2/ss - sigmaChase ss m)

/-- The single-vector Chebyshev recurrence that the spec (§4.1, §8) uses as
the reference semantics of the filter on one column: `y_0` is the input
column, `y_1 = (sigma_scale/e)·A·y_0`, and
`y_(i) = (2σ_i/e)·A·y_(i-1) − σ_(i-1)·σ_i·y_(i-2)` for `i ≥ 2`, where `A` is
the shifted operator.  `chebCol N A ss e v d` is `y_d` for input column `v`. -/
def chebCol (N : Nat) (A : Mat) (ss e : ℚ) (v : Int → ℚ) : Nat → Int → ℚ
  | 0, r => v r
  | 1, r => ss/e * matColEntry N A v r
  | m+2, r =>
      2 * sigmaChase ss (m+1) / e *
        matColEntry N A (chebCol N A ss e v (m+1)) r
      - sigmaChase ss m * sigmaChase ss (m+1) * chebCol N A ss e v m r

/-- Number of schedule entries that are at most `t`.  For an ascending
schedule this is the number of vectors whose scheduled degree is `≤ t`, i.e.
the value of the cursor `j` once the loop counter has passed `t`. -/
def cntLe (ds : List Int) (t : Int) : Nat :=
  ds.countP (fun d => d ≤ t)

/-! Basic lemmas about the matrix primitives. -/

theorem matMulEntry_congr (N : Nat) (A S : Mat) (v : Int → ℚ) (r c : Int)
    (h : ∀ x : Int, 0 ≤ x → x < (N : Int) → S x c = v x) :
    matMulEntry N A S r c = matColEntry N A v r := by
  unfold matMulEntry matColEntry
  refine Finset.sum_congr rfl (fun k hk => ?_)
  rw [Finset.mem_range] at hk
  dsimp only
  rw [h (k : Int) (Int.ofNat_nonneg k) (by exact_mod_cast hk)]

theorem hemmView_in (N : Nat) (alpha : ℚ) (A S : Mat) (beta : ℚ) (D : Mat)
    (s w r c : Int) (hr : 0 ≤ r) (hr' : r < (N : Int)) (hc : s ≤ c)
    (hc' : c < s + w) :
    hemmView N alpha A S beta D s w r c =
      alpha * matMulEntry N A S r c + beta * D r c := by
  unfold hemmView
  rw [if_pos ⟨hr, hr', hc, hc'⟩]

theorem hemmView_out (N : Nat) (alpha : ℚ) (A S : Mat) (beta : ℚ) (D : Mat)
    (s w r c : Int) (h : ¬ (0 ≤ r ∧ r < (N : Int) ∧ s ≤ c ∧ c < s + w)) :
    hemmView N alpha A S beta D s w r c = D r c := by
  unfold hemmView
  rw [if_neg h]

theorem copyView_in (N : Nat) (S D : Mat) (s w r c : Int) (hr : 0 ≤ r)
    (hr' : r < (N : Int)) (hc : s ≤ c) (hc' : c < s + w) :
    copyView N S D s w r c = S r c := by
  unfold copyView
  rw [if_pos ⟨hr, hr', hc, hc'⟩]

theorem copyView_out (N : Nat) (S D : Mat) (s w r c : Int)
    (h : ¬ (0 ≤ r ∧ r < (N : Int) ∧ s ≤ c ∧ c < s + w)) :
    copyView N S D s w r c = D r c := by
  unfold copyView
  rw [if_neg h]

/-- Restoration identity for the diagonal save/shift/restore discipline:
writing the saved diagonal back over the shifted operator recovers the
original operator exactly, entry for entry. -/
theorem setDiag_shiftDiag (N : Nat) (A : Mat) (t : ℚ) (r c : Int) :
    setDiag N (shiftDiag N A t) (getDiag A) r c = A r c := by
  unfold setDiag shiftDiag getDiag
  by_cases h : r = c ∧ 0 ≤ r ∧ r < (N : Int)
  · rw [if_pos h, h.1]
  · rw [if_neg h, if_neg h]

/-! Lemmas about the schedule bookkeeping (`cntLe`, `takeCount`) on an
ascending schedule. -/

theorem cntLe_nil (t : Int) : cntLe [] t = 0 := rfl

theorem cntLe_cons (d : Int) (tl : List Int) (t : Int) :
    cntLe (d :: tl) t = cntLe tl t + (if d ≤ t then 1 else 0) := by
  unfold cntLe
  rw [List.countP_cons]
  by_cases h : d ≤ t
  · rw [if_pos h, if_pos (by simpa using h)]
  · rw [if_neg h, if_neg (by simpa using h)]

theorem cntLe_le_length (ds : List Int) (t : Int) : cntLe ds t ≤ ds.length :=
  List.countP_le_length _

theorem cntLe_eq_zero (ds : List Int) (t : Int) (h : ∀ x ∈ ds, t < x) :
    cntLe ds t = 0 := by
  unfold cntLe
  rw [List.countP_eq_zero]
  intro a ha
  simpa using not_le.mpr (h a ha)

theorem cntLe_eq_length (ds : List Int) (t : Int) (h : ∀ x ∈ ds, x ≤ t) :
    cntLe ds t = ds.length := by
  unfold cntLe
  rw [List.countP_eq_length]
  intro a ha
  simpa using h a ha

theorem takeCount_eq_cntLe (ds : List Int) (i : Int)
    (hs : ds.Sorted (· ≤ ·)) (hge : ∀ x ∈ ds, i ≤ x) :
    takeCount i ds = cntLe ds i := by
  induction ds with
  | nil => rfl
  | cons d tl ih =>
    rw [List.sorted_cons] at hs
    rw [cntLe_cons]
    unfold takeCount
    by_cases hd : d = i
    · rw [if_pos hd, ih hs.2 (fun x hx => le_trans (hge d (by simp)) (hs.1 x hx)),
        if_pos (le_of_eq hd)]
    · rw [if_neg hd]
      have hdi : i < d := lt_of_le_of_ne (hge d (by simp)) (fun h => hd h.symm)
      rw [cntLe_eq_zero tl i (fun x hx => lt_of_lt_of_le hdi (hs.1 x hx)),
        if_neg (not_le.mpr hdi)]

theorem cntLe_add_takeCount (ds : List Int) (t : Int)
    (hs : ds.Sorted (· ≤ ·)) :
    cntLe ds t + takeCount (t+1) (ds.drop (cntLe ds t)) = cntLe ds (t+1) := by
  induction ds with
  | nil => rfl
  | cons d tl ih =>
    rw [List.sorted_cons] at hs
    by_cases hdt : d ≤ t
    · rw [cntLe_cons _ _ t, if_pos hdt, cntLe_cons _ _ (t+1),
        if_pos (le_trans hdt (by omega))]
      have hdrop : (d :: tl).drop (cntLe tl t + 1) = tl.drop (cntLe tl t) := by
        simp [List.drop_succ_cons]
      rw [hdrop]
      have := ih hs.2
      omega
    · have htl : ∀ x ∈ tl, t < x :=
        fun x hx => lt_of_lt_of_le (not_le.mp hdt) (hs.1 x hx)
      have h0 : cntLe (d :: tl) t = 0 := by
        rw [cntLe_cons, cntLe_eq_zero tl t htl, if_neg hdt]
      rw [h0, List.drop_zero, cntLe_cons _ _ (t+1)]
      unfold takeCount
      by_cases hd1 : d = t + 1
      · rw [if_pos hd1, if_pos (le_of_eq hd1),
          takeCount_eq_cntLe tl (t+1) hs.2
            (fun x hx => le_trans (le_of_eq hd1.symm) (hs.1 x hx))]
        omega
      · have hgt : t + 1 < d := by
          have := not_le.mp hdt
          omega
        rw [if_neg hd1, if_neg (not_le.mpr hgt),
          cntLe_eq_zero tl (t+1) (fun x hx => lt_of_lt_of_le hgt (hs.1 x hx))]

theorem lt_cntLe_iff (ds : List Int) (t : Int) (k : Nat)
    (hs : ds.Sorted (· ≤ ·)) :
    k < cntLe ds t ↔ k < ds.length ∧ ds.getD k 0 ≤ t := by
  induction ds generalizing k with
  | nil => simp [cntLe_nil]
  | cons d tl ih =>
    rw [List.sorted_cons] at hs
    by_cases hdt : d ≤ t
    · rw [cntLe_cons, if_pos hdt]
      cases k with
      | zero => simpa using hdt
      | succ k =>
        rw [Nat.succ_lt_succ_iff, ih k hs.2]
        simp [List.getD_cons_succ, Nat.succ_lt_succ_iff]
    · have h0 : cntLe (d :: tl) t = 0 := by
        rw [cntLe_cons, if_neg hdt,
          cntLe_eq_zero tl t
            (fun x hx => lt_of_lt_of_le (not_le.mp hdt) (hs.1 x hx))]
      rw [h0]
      constructor
      · omega
      · rintro ⟨hk, hle⟩
        exfalso
        cases k with
        | zero => exact hdt (by simpa using hle)
        | succ k =>
          rw [List.getD_cons_succ] at hle
          have hlen : k < tl.length := by simpa using hk
          have hmem : tl.getD k 0 ∈ tl := by
            rw [List.getD_eq_getElem tl 0 hlen]
            exact List.getElem_mem hlen
          exact absurd hle
            (not_le.mpr (lt_of_lt_of_le (not_le.mp hdt) (hs.1 _ hmem)))

/-! Loop invariant for `degrees = NULL` : the active range never moves, and
the ping-pong buffers hold two consecutive iterates of the single-column
reference recurrence on every active column. -/

/-- The buffer that holds the most recent iterate before loop iteration
`i = m + 2` : `W` after an odd number of multiplies, `V` after an even one. -/
def srcBuf (m : Nat) (st : LoopSt) : Mat :=
  if m % 2 = 0 then st.W else st.V

/-- The buffer that holds the previous iterate before loop iteration
`i = m + 2` (the destination of that iteration). -/
def othBuf (m : Nat) (st : LoopSt) : Mat :=
  if m % 2 = 0 then st.V else st.W

/-- Invariant of the main loop for `degrees = NULL`, at the entry of loop
iteration `i = m + 2` : the active range and the cursor are unchanged, the
cost metric has accumulated `m + 1` multiplies of the full width, `sigma` is
the `(m+1)`-st recurrence parameter, the two buffers hold iterates `m+1` and
`m` of the reference recurrence on every active column, and everything
outside the active view (rows `≥ N`, columns outside the range) still holds
its initial value. -/
def NoneInv (N : Nat) (A1 : Mat) (ss e : ℚ) (start0 width0 : Int)
    (V0 W0 : Mat) (m : Nat) (st : LoopSt) : Prop :=
  st.start = start0 ∧ st.width = width0 ∧ st.j = 0 ∧
  st.sigma = sigmaChase ss m ∧
  st.total = width0 * ((m : Int) + 1) ∧
  (∀ c : Int, start0 ≤ c → c < start0 + width0 →
    ∀ r : Int, 0 ≤ r → r < (N : Int) →
      srcBuf m st r c = chebCol N A1 ss e (fun x => V0 x c) (m+1) r ∧
      othBuf m st r c = chebCol N A1 ss e (fun x => V0 x c) m r) ∧
  (∀ r c : Int, ¬ (0 ≤ r ∧ r < (N : Int)) →
    st.V r c = V0 r c ∧ st.W r c = W0 r c) ∧
  (∀ r c : Int, ¬ (start0 ≤ c ∧ c < start0 + width0) →
    st.V r c = V0 r c ∧ st.W r c = W0 r c)

theorem chebCol_two_step (N : Nat) (A : Mat) (ss e : ℚ) (v : Int → ℚ)
    (m : Nat) (r : Int) :
    chebCol N A ss e v (m+2) r =
      2 * sigmaChase ss (m+1) / e *
          matColEntry N A (chebCol N A ss e v (m+1)) r
        - sigmaChase ss m * sigmaChase ss (m+1) * chebCol N A ss e v m r := by
  rfl

theorem getD_le_of_sorted (ds : List Int) (k m : Nat)
    (hs : ds.Sorted (· ≤ ·)) (hk : k ≤ m) (hm : m < ds.length) :
    ds.getD k 0 ≤ ds.getD m 0 := by
  rw [List.getD_eq_getElem ds 0 (lt_of_le_of_lt hk hm),
    List.getD_eq_getElem ds 0 hm]
  rcases eq_or_lt_of_le hk with h | h
  · subst h; exact le_refl _
  · exact List.pairwise_iff_get.mp hs ⟨k, _⟩ ⟨m, _⟩ h

/-- Closed form of one loop iteration when `degrees = NULL` : only the
destination buffer, `sigma` and the cost metric change. -/
theorem filterIter_none_eq (N : Nat) (A : Mat) (ss e : ℚ) (i : Int)
    (st : LoopSt) :
    filterIter N A none ss e i st =
      { st with
        V := if i % 2 = 0 then
            hemmView N (2*(1/(2/ss - st.sigma))/e) A st.W
              (-(st.sigma*(1/(2/ss - st.sigma)))) st.V st.start st.width
          else st.V,
        W := if i % 2 = 0 then st.W
          else hemmView N (2*(1/(2/ss - st.sigma))/e) A st.V
              (-(st.sigma*(1/(2/ss - st.sigma)))) st.W st.start st.width,
        sigma := 1/(2/ss - st.sigma),
        total := st.total + st.width } := by
  unfold filterIter
  by_cases hi : i % 2 = 0 <;> simp [hi]

theorem noneStep (N : Nat) (A1 : Mat) (ss e : ℚ) (start0 width0 : Int)
    (V0 W0 : Mat) (m : Nat) (st : LoopSt)
    (h : NoneInv N A1 ss e start0 width0 V0 W0 m st) :
    NoneInv N A1 ss e start0 width0 V0 W0 (m+1)
      (filterIter N A1 none ss e (2 + (m : Int)) st) := by
  obtain ⟨hst, hwd, hj, hsig, htot, hval, hrow, hcol⟩ := h
  rw [filterIter_none_eq]
  have hsig' : 1/(2/ss - st.sigma) = sigmaChase ss (m+1) := by
    rw [hsig]; rfl
  by_cases hm : m % 2 = 0
  · -- iteration i = m + 2 is even: read from W, write into V
    have hi : (2 + (m : Int)) % 2 = 0 := by omega
    have hm1 : ¬ (m+1) % 2 = 0 := by omega
    refine ⟨by simpa using hst, by simpa using hwd, by simpa using hj,
      by simpa using hsig', ?_, ?_, ?_, ?_⟩
    · show st.total + st.width = width0 * (((m:Nat)+1 : Nat) + 1)
      rw [htot, hwd]; push_cast; ring
    · intro c hc1 hc2 r hr1 hr2
      have hWsrc : ∀ x : Int, 0 ≤ x → x < (N : Int) →
          st.W x c = chebCol N A1 ss e (fun y => V0 y c) (m+1) x := by
        intro x hx1 hx2
        have := (hval c hc1 hc2 x hx1 hx2).1
        rwa [srcBuf, if_pos hm] at this
      have hVoth : st.V r c = chebCol N A1 ss e (fun y => V0 y c) m r := by
        have := (hval c hc1 hc2 r hr1 hr2).2
        rwa [othBuf, if_pos hm] at this
      constructor
      · show srcBuf (m+1) _ r c = _
        rw [srcBuf, if_neg hm1]
        show (if (2 + (m:Int)) % 2 = 0 then _ else st.V) r c = _
        rw [if_pos hi, hemmView_in N _ A1 st.W _ st.V _ _ r c hr1 hr2
          (by omega) (by omega),
          matMulEntry_congr N A1 st.W _ r c hWsrc, hVoth,
          chebCol_two_step, hsig', hsig]
        ring
      · show othBuf (m+1) _ r c = _
        rw [othBuf, if_neg hm1]
        show (if (2 + (m:Int)) % 2 = 0 then st.W else _) r c = _
        rw [if_pos hi]
        have := (hval c hc1 hc2 r hr1 hr2).1
        rwa [srcBuf, if_pos hm] at this
    · intro r c hrc
      have hout : ¬ (0 ≤ r ∧ r < (N : Int) ∧ st.start ≤ c ∧ c < st.start + st.width) := by
        intro hcon; exact hrc ⟨hcon.1, hcon.2.1⟩
      constructor
      · show (if (2 + (m:Int)) % 2 = 0 then _ else st.V) r c = V0 r c
        rw [if_pos hi, hemmView_out _ _ _ _ _ _ _ _ _ _ hout]
        exact (hrow r c hrc).1
      · show (if (2 + (m:Int)) % 2 = 0 then st.W else _) r c = W0 r c
        rw [if_pos hi]
        exact (hrow r c hrc).2
    · intro r c hc
      have hout : ¬ (0 ≤ r ∧ r < (N : Int) ∧ st.start ≤ c ∧ c < st.start + st.width) := by
        rw [hst, hwd]
        intro hcon; exact hc ⟨hcon.2.2.1, hcon.2.2.2⟩
      constructor
      · show (if (2 + (m:Int)) % 2 = 0 then _ else st.V) r c = V0 r c
        rw [if_pos hi, hemmView_out _ _ _ _ _ _ _ _ _ _ hout]
        exact (hcol r c hc).1
      · show (if (2 + (m:Int)) % 2 = 0 then st.W else _) r c = W0 r c
        rw [if_pos hi]
        exact (hcol r c hc).2
  · -- iteration i = m + 2 is odd: read from V, write into W
    have hi : ¬ (2 + (m : Int)) % 2 = 0 := by omega
    have hm1 : (m+1) % 2 = 0 := by omega
    refine ⟨by simpa using hst, by simpa using hwd, by simpa using hj,
      by simpa using hsig', ?_, ?_, ?_, ?_⟩
    · show st.total + st.width = width0 * (((m:Nat)+1 : Nat) + 1)
      rw [htot, hwd]; push_cast; ring
    · intro c hc1 hc2 r hr1 hr2
      have hVsrc : ∀ x : Int, 0 ≤ x → x < (N : Int) →
          st.V x c = chebCol N A1 ss e (fun y => V0 y c) (m+1) x := by
        intro x hx1 hx2
        have := (hval c hc1 hc2 x hx1 hx2).1
        rwa [srcBuf, if_neg hm] at this
      have hWoth : st.W r c = chebCol N A1 ss e (fun y => V0 y c) m r := by
        have := (hval c hc1 hc2 r hr1 hr2).2
        rwa [othBuf, if_neg hm] at this
      constructor
      · show srcBuf (m+1) _ r c = _
        rw [srcBuf, if_pos hm1]
        show (if (2 + (m:Int)) % 2 = 0 then st.W else _) r c = _
        rw [if_neg hi, hemmView_in N _ A1 st.V _ st.W _ _ r c hr1 hr2
          (by omega) (by omega),
          matMulEntry_congr N A1 st.V _ r c hVsrc, hWoth,
          chebCol_two_step, hsig', hsig]
        ring
      · show othBuf (m+1) _ r c = _
        rw [othBuf, if_pos hm1]
        show (if (2 + (m:Int)) % 2 = 0 then _ else st.V) r c = _
        rw [if_neg hi]
        have := (hval c hc1 hc2 r hr1 hr2).1
        rwa [srcBuf, if_neg hm] at this
    · intro r c hrc
      have hout : ¬ (0 ≤ r ∧ r < (N : Int) ∧ st.start ≤ c ∧ c < st.start + st.width) := by
        intro hcon; exact hrc ⟨hcon.1, hcon.2.1⟩
      constructor
      · show (if (2 + (m:Int)) % 2 = 0 then _ else st.V) r c = V0 r c
        rw [if_neg hi]
        exact (hrow r c hrc).1
      · show (if (2 + (m:Int)) % 2 = 0 then st.W else _) r c = W0 r c
        rw [if_neg hi, hemmView_out _ _ _ _ _ _ _ _ _ _ hout]
        exact (hrow r c hrc).2
    · intro r c hc
      have hout : ¬ (0 ≤ r ∧ r < (N : Int) ∧ st.start ≤ c ∧ c < st.start + st.width) := by
        rw [hst, hwd]
        intro hcon; exact hc ⟨hcon.2.2.1, hcon.2.2.2⟩
      constructor
      · show (if (2 + (m:Int)) % 2 = 0 then _ else st.V) r c = V0 r c
        rw [if_neg hi]
        exact (hcol r c hc).1
      · show (if (2 + (m:Int)) % 2 = 0 then st.W else _) r c = W0 r c
        rw [if_neg hi, hemmView_out _ _ _ _ _ _ _ _ _ _ hout]
        exact (hcol r c hc).2

theorem chebCol_zero (N : Nat) (A : Mat) (ss e : ℚ) (v : Int → ℚ) (r : Int) :
    chebCol N A ss e v 0 r = v r := rfl

theorem chebCol_one (N : Nat) (A : Mat) (ss e : ℚ) (v : Int → ℚ) (r : Int) :
    chebCol N A ss e v 1 r = ss/e * matColEntry N A v r := rfl

/-- The cursor value after the degree-1 deflation that precedes the main
loop : `0` without a schedule, else the leading run of schedule entries
equal to `1`. -/
def j0Of (degrees : Option (List Int)) : Nat :=
  match degrees with
  | none => 0
  | some ds => takeCount 1 ds

/-- State of the main loop after all its iterations, starting from the state
prepared by the first filtering step (`W1` is the buffer produced by the
degree-1 multiply). -/
def loopOut (N : Nat) (A1 : Mat) (degrees : Option (List Int)) (ss e : ℚ)
    (dm : Int) (V W1 : Mat) (start width : Int) : LoopSt :=
  filterLoop N A1 degrees ss e (dm - 1).toNat 2
    ⟨V, W1, start + (j0Of degrees : Int), width - (j0Of degrees : Int),
      j0Of degrees, ss, width⟩

/-- Closed form of a `filter` call that reaches the main loop : the degree
read succeeds with a non-zero maximum degree and both submatrix assertions
pass, so the call returns normally, with the diagonal of `A` restored from
the saved copy, the final buffers given by the loop, the even-`degmax` copy
applied, and both NaN-scan blocks executed (when enabled) without finding
anything. -/
theorem filter_main_eq (uplo : Bool) (N : Nat) (A V W : Mat)
    (VH VW WH WW start width deg : Int) (degrees : Option (List Int))
    (lambda lower upper : ℚ) (sn : Bool) (dm : Int)
    (hdm : degmaxOf deg degrees = some dm) (hne : ¬ dm = 0)
    (hv : validSubB VH VW N (start+width) = true)
    (hw : validSubB WH WW N (start+width) = true) :
    filter uplo N A V W VH VW WH WW start width deg degrees lambda lower upper sn =
      FilterOut.ok
        ⟨(loopOut N (shiftDiag N A (-((upper+lower)/2))) degrees
            ((upper-lower)/2/(lambda - (upper+lower)/2)) ((upper-lower)/2) dm V
            (hemmView N ((upper-lower)/2/(lambda - (upper+lower)/2)/((upper-lower)/2))
              (shiftDiag N A (-((upper+lower)/2))) V 0 W start width)
            start width).total,
          setDiag N (shiftDiag N A (-((upper+lower)/2))) (getDiag A),
          (loopOut N (shiftDiag N A (-((upper+lower)/2))) degrees
            ((upper-lower)/2/(lambda - (upper+lower)/2)) ((upper-lower)/2) dm V
            (hemmView N ((upper-lower)/2/(lambda - (upper+lower)/2)/((upper-lower)/2))
              (shiftDiag N A (-((upper+lower)/2))) V 0 W start width)
            start width).V,
          (if dm % 2 = 0 then
            copyView N
              (loopOut N (shiftDiag N A (-((upper+lower)/2))) degrees
                ((upper-lower)/2/(lambda - (upper+lower)/2)) ((upper-lower)/2) dm V
                (hemmView N ((upper-lower)/2/(lambda - (upper+lower)/2)/((upper-lower)/2))
                  (shiftDiag N A (-((upper+lower)/2))) V 0 W start width)
                start width).V
              (loopOut N (shiftDiag N A (-((upper+lower)/2))) degrees
                ((upper-lower)/2/(lambda - (upper+lower)/2)) ((upper-lower)/2) dm V
                (hemmView N ((upper-lower)/2/(lambda - (upper+lower)/2)/((upper-lower)/2))
                  (shiftDiag N A (-((upper+lower)/2))) V 0 W start width)
                start width).W
              (loopOut N (shiftDiag N A (-((upper+lower)/2))) degrees
                ((upper-lower)/2/(lambda - (upper+lower)/2)) ((upper-lower)/2) dm V
                (hemmView N ((upper-lower)/2/(lambda - (upper+lower)/2)/((upper-lower)/2))
                  (shiftDiag N A (-((upper+lower)/2))) V 0 W start width)
                start width).start
              (loopOut N (shiftDiag N A (-((upper+lower)/2))) degrees
                ((upper-lower)/2/(lambda - (upper+lower)/2)) ((upper-lower)/2) dm V
                (hemmView N ((upper-lower)/2/(lambda - (upper+lower)/2)/((upper-lower)/2))
                  (shiftDiag N A (-((upper+lower)/2))) V 0 W start width)
                start width).width
          else
            (loopOut N (shiftDiag N A (-((upper+lower)/2))) degrees
              ((upper-lower)/2/(lambda - (upper+lower)/2)) ((upper-lower)/2) dm V
              (hemmView N ((upper-lower)/2/(lambda - (upper+lower)/2)/((upper-lower)/2))
                (shiftDiag N A (-((upper+lower)/2))) V 0 W start width)
              start width).W),
          (if sn then 1 else 0) + (if sn then 1 else 0)⟩ := by
  have hassert : ¬ ¬ (validSubB VH VW N (start+width) = true ∧
      validSubB WH WW N (start+width) = true) := by
    simp [hv, hw]
  simp only [filter, hdm]
  rw [if_neg hne, if_neg hassert]
  simp only [isnanQ, Bool.or_self, Bool.and_false, Bool.false_eq_true,
    if_false]
  rfl

/-- The main loop preserves the `degrees = NULL` invariant across any number
of iterations. -/
theorem noneLoop (N : Nat) (A1 : Mat) (ss e : ℚ) (start0 width0 : Int)
    (V0 W0 : Mat) (fuel : Nat) :
    ∀ (m : Nat) (st : LoopSt),
      NoneInv N A1 ss e start0 width0 V0 W0 m st →
      NoneInv N A1 ss e start0 width0 V0 W0 (m + fuel)
        (filterLoop N A1 none ss e fuel (2 + (m : Int)) st) := by
  induction fuel with
  | zero => intro m st h; exact h
  | succ fuel ih =>
    intro m st h
    have hstep := noneStep N A1 ss e start0 width0 V0 W0 m st h
    have hrec := ih (m+1) _ hstep
    rw [show m + (fuel + 1) = (m + 1) + fuel by ring]
    show NoneInv N A1 ss e start0 width0 V0 W0 (m + 1 + fuel)
      (filterLoop N A1 none ss e fuel ((2 + (m : Int)) + 1)
        (filterIter N A1 none ss e (2 + (m : Int)) st))
    rw [show (2 + ((m : Nat) : Int)) + 1 = 2 + (((m+1) : Nat) : Int) by push_cast; ring]
    exact hrec

theorem matMulEntry_eq (N : Nat) (A S : Mat) (r c : Int) :
    matMulEntry N A S r c = matColEntry N A (fun x => S x c) r := rfl

/-- Full characterization of a `filter` call with `degrees = NULL` and a
positive degree : the call returns normally; the cost metric is
`width * deg`; `A` is restored exactly; every active column of `W` holds the
degree-`deg` iterate of the reference recurrence on the corresponding input
column; and every entry of `V` and `W` outside the active view (row outside
`[0,N)` or column outside `[start, start+width)`) is unchanged. -/
theorem filter_none_spec (uplo : Bool) (N : Nat) (A V W : Mat)
    (VH VW WH WW start width deg : Int) (lambda lower upper : ℚ) (sn : Bool)
    (hdeg : 1 ≤ deg)
    (hv : validSubB VH VW N (start+width) = true)
    (hw : validSubB WH WW N (start+width) = true) :
    ∃ res : FilterResult,
      filter uplo N A V W VH VW WH WW start width deg none lambda lower upper sn
        = FilterOut.ok res
      ∧ res.ret = width * deg
      ∧ (∀ r c : Int, res.A r c = A r c)
      ∧ (∀ c : Int, start ≤ c → c < start + width →
          ∀ r : Int, 0 ≤ r → r < (N : Int) →
            res.W r c = chebCol N (shiftDiag N A (-((upper+lower)/2)))
              ((upper-lower)/2/(lambda - (upper+lower)/2)) ((upper-lower)/2)
              (fun x => V x c) deg.toNat r)
      ∧ (∀ r c : Int, ¬ (0 ≤ r ∧ r < (N : Int)) →
          res.V r c = V r c ∧ res.W r c = W r c)
      ∧ (∀ r c : Int, ¬ (start ≤ c ∧ c < start + width) →
          res.V r c = V r c ∧ res.W r c = W r c)
      ∧ res.scans = (if sn then 2 else 0) := by
  have hne : ¬ (deg = 0) := by omega
  have hmain := filter_main_eq uplo N A V W VH VW WH WW start width deg none
    lambda lower upper sn deg rfl hne hv hw
  have hInv0 : NoneInv N (shiftDiag N A (-((upper+lower)/2)))
      ((upper-lower)/2/(lambda - (upper+lower)/2)) ((upper-lower)/2)
      start width V W 0
      ⟨V, hemmView N ((upper-lower)/2/(lambda - (upper+lower)/2)/((upper-lower)/2))
          (shiftDiag N A (-((upper+lower)/2))) V 0 W start width,
        start + (j0Of none : Int), width - (j0Of none : Int), j0Of none,
        (upper-lower)/2/(lambda - (upper+lower)/2), width⟩ := by
    refine ⟨by simp [j0Of], by simp [j0Of], rfl, rfl, by push_cast; ring,
      ?_, ?_, ?_⟩
    · intro c hc1 hc2 r hr1 hr2
      refine ⟨?_, rfl⟩
      show hemmView _ _ _ _ _ _ _ _ r c = _
      rw [hemmView_in _ _ _ _ _ _ _ _ r c hr1 hr2 hc1 hc2, chebCol_one,
        matMulEntry_eq]
      ring
    · intro r c hrc
      refine ⟨rfl, ?_⟩
      show hemmView _ _ _ _ _ _ _ _ r c = W r c
      exact hemmView_out _ _ _ _ _ _ _ _ _ _ (fun hcon => hrc ⟨hcon.1, hcon.2.1⟩)
    · intro r c hc
      refine ⟨rfl, ?_⟩
      show hemmView _ _ _ _ _ _ _ _ r c = W r c
      exact hemmView_out _ _ _ _ _ _ _ _ _ _
        (fun hcon => hc ⟨hcon.2.2.1, hcon.2.2.2⟩)
  have hkey := noneLoop N (shiftDiag N A (-((upper+lower)/2)))
      ((upper-lower)/2/(lambda - (upper+lower)/2)) ((upper-lower)/2)
      start width V W (deg - 1).toNat 0 _ hInv0
  rw [show (2 + (((0:Nat)) : Int)) = (2 : Int) by norm_num, Nat.zero_add]
    at hkey
  have hf : (((deg - 1).toNat : Nat) : Int) = deg - 1 :=
    Int.toNat_of_nonneg (by omega)
  obtain ⟨hst, hwd, hj, hsig, htot, hval, hrow, hcol⟩ := hkey
  rw [hmain]
  refine ⟨_, rfl, ?_, ?_, ?_, ?_, ?_, ?_⟩
  · dsimp only
    unfold loopOut
    rw [htot, hf]; ring
  · intro r c
    dsimp only
    exact setDiag_shiftDiag N A _ r c
  · intro c hc1 hc2 r hr1 hr2
    dsimp only
    unfold loopOut
    by_cases hp : deg % 2 = 0
    · rw [if_pos hp, hst, hwd,
        copyView_in _ _ _ _ _ r c hr1 hr2 hc1 hc2]
      have hfo : ¬ ((deg - 1).toNat % 2 = 0) := by omega
      have := (hval c hc1 hc2 r hr1 hr2).1
      rw [srcBuf, if_neg hfo] at this
      rw [show (deg - 1).toNat + 1 = deg.toNat by omega] at this
      exact this
    · rw [if_neg hp]
      have hfe : (deg - 1).toNat % 2 = 0 := by omega
      have := (hval c hc1 hc2 r hr1 hr2).1
      rw [srcBuf, if_pos hfe] at this
      rw [show (deg - 1).toNat + 1 = deg.toNat by omega] at this
      exact this
  · intro r c hrc
    dsimp only
    unfold loopOut
    refine ⟨(hrow r c hrc).1, ?_⟩
    by_cases hp : deg % 2 = 0
    · rw [if_pos hp,
        copyView_out _ _ _ _ _ r c (fun hcon => hrc ⟨hcon.1, hcon.2.1⟩)]
      exact (hrow r c hrc).2
    · rw [if_neg hp]
      exact (hrow r c hrc).2
  · intro r c hc
    dsimp only
    unfold loopOut
    refine ⟨(hcol r c hc).1, ?_⟩
    by_cases hp : deg % 2 = 0
    · rw [if_pos hp, hst, hwd,
        copyView_out _ _ _ _ _ r c (fun hcon => hc ⟨hcon.2.2.1, hcon.2.2.2⟩)]
      exact (hcol r c hc).2
    · rw [if_neg hp]
      exact (hcol r c hc).2
  · dsimp only
    cases sn <;> rfl

/-- Closed form of one loop iteration when a degree schedule is present :
besides the parity-selected multiply, the schedule cursor advances past the
run of entries equal to `i`, the active range shrinks by that run, and when
the destination of the multiply was `V` the newly deflated columns are
copied into `W`. -/
theorem filterIter_some_eq (N : Nat) (A : Mat) (ds : List Int) (ss e : ℚ)
    (i : Int) (st : LoopSt) :
    filterIter N A (some ds) ss e i st =
      { V := if i % 2 = 0 then
            hemmView N (2*(1/(2/ss - st.sigma))/e) A st.W
              (-(st.sigma*(1/(2/ss - st.sigma)))) st.V st.start st.width
          else st.V,
        W := if i % 2 = 0 then
            (if 0 < takeCount i (ds.drop st.j) then
              copyView N
                (hemmView N (2*(1/(2/ss - st.sigma))/e) A st.W
                  (-(st.sigma*(1/(2/ss - st.sigma)))) st.V st.start st.width)
                st.W st.start (takeCount i (ds.drop st.j) : Int)
            else st.W)
          else
            hemmView N (2*(1/(2/ss - st.sigma))/e) A st.V
              (-(st.sigma*(1/(2/ss - st.sigma)))) st.W st.start st.width,
        start := st.start + (takeCount i (ds.drop st.j) : Int),
        width := st.width - (takeCount i (ds.drop st.j) : Int),
        j := st.j + takeCount i (ds.drop st.j),
        sigma := 1/(2/ss - st.sigma),
        total := st.total + st.width } := by
  unfold filterIter
  by_cases hi : i % 2 = 0
  · by_cases hl : 0 < takeCount i (ds.drop st.j) <;> simp [hi, hl]
  · simp [hi]

/-- One application of the shifted operator advances a column holding two
consecutive reference iterates to the next reference iterate. -/
theorem hemm_next (N : Nat) (A1 : Mat) (ss e : ℚ) (v : Int → ℚ) (m : Nat)
    (S D : Mat) (s w : Int) (sg : ℚ) (hsg : sg = sigmaChase ss m)
    (r c : Int) (hr : 0 ≤ r) (hr' : r < (N : Int)) (hc : s ≤ c)
    (hc' : c < s + w)
    (hS : ∀ x : Int, 0 ≤ x → x < (N : Int) → S x c = chebCol N A1 ss e v (m+1) x)
    (hD : D r c = chebCol N A1 ss e v m r) :
    hemmView N (2*(1/(2/ss - sg))/e) A1 S (-(sg*(1/(2/ss - sg)))) D s w r c
      = chebCol N A1 ss e v (m+2) r := by
  rw [hemmView_in _ _ _ _ _ _ _ _ _ _ hr hr' hc hc',
    matMulEntry_congr N A1 S (chebCol N A1 ss e v (m+1)) r c hS, hD,
    chebCol_two_step, hsg]
  have : 1/(2/ss - sigmaChase ss m) = sigmaChase ss (m+1) := rfl
  rw [this]
  ring

/-- Invariant of the main loop for a sorted degree schedule, at the entry of
loop iteration `i = m + 2` : the cursor equals the number of schedule entries
`≤ m+1`; the active range starts `j` columns into the original range and has
shrunk by `j`; `sigma` is the `(m+1)`-st recurrence parameter; every deflated
column already holds its final (scheduled-degree) iterate in `W`; every
active column holds iterates `m+1` and `m` in the ping-pong buffers; and
everything outside the original view is unchanged. -/
def SchedInv (N : Nat) (A1 : Mat) (ss e : ℚ) (ds : List Int) (start0 : Int)
    (V0 W0 : Mat) (m : Nat) (st : LoopSt) : Prop :=
  st.j = cntLe ds ((m : Int) + 1) ∧
  st.start = start0 + (st.j : Int) ∧
  st.width = (ds.length : Int) - (st.j : Int) ∧
  st.sigma = sigmaChase ss m ∧
  (∀ k : Nat, k < st.j → ∀ r : Int, 0 ≤ r → r < (N : Int) →
    st.W r (start0 + (k : Int)) =
      chebCol N A1 ss e (fun x => V0 x (start0 + (k : Int)))
        (ds.getD k 0).toNat r) ∧
  (∀ k : Nat, st.j ≤ k → k < ds.length → ∀ r : Int, 0 ≤ r → r < (N : Int) →
    srcBuf m st r (start0 + (k : Int)) =
      chebCol N A1 ss e (fun x => V0 x (start0 + (k : Int))) (m+1) r ∧
    othBuf m st r (start0 + (k : Int)) =
      chebCol N A1 ss e (fun x => V0 x (start0 + (k : Int))) m r) ∧
  (∀ r c : Int, ¬ (0 ≤ r ∧ r < (N : Int)) →
    st.V r c = V0 r c ∧ st.W r c = W0 r c) ∧
  (∀ r c : Int, ¬ (start0 ≤ c ∧ c < start0 + (ds.length : Int)) →
    st.V r c = V0 r c ∧ st.W r c = W0 r c)

theorem schedStep (N : Nat) (A1 : Mat) (ss e : ℚ) (ds : List Int)
    (start0 : Int) (V0 W0 : Mat) (hs : ds.Sorted (· ≤ ·)) (m : Nat)
    (st : LoopSt) (h : SchedInv N A1 ss e ds start0 V0 W0 m st) :
    SchedInv N A1 ss e ds start0 V0 W0 (m+1)
      (filterIter N A1 (some ds) ss e (2 + (m : Int)) st) := by
  obtain ⟨hj, hst, hwd, hsig, hdefl, hact, hrow, hcol⟩ := h
  rw [filterIter_some_eq]
  set l := takeCount (2 + (m : Int)) (ds.drop st.j) with hldef
  have hsig' : 1/(2/ss - st.sigma) = sigmaChase ss (m+1) := by rw [hsig]; rfl
  have hcnt : st.j + l = cntLe ds (((m : Int) + 1) + 1) := by
    rw [hldef, hj, show (2 + (m : Int)) = ((m : Int) + 1) + 1 by ring]
    exact cntLe_add_takeCount ds ((m : Int) + 1) hs
  have hjle : st.j ≤ ds.length := by
    rw [hj]; exact cntLe_le_length ds _
  have hjle' : st.j + l ≤ ds.length := by
    rw [hcnt]; exact cntLe_le_length ds _
  have hdegk : ∀ k : Nat, st.j ≤ k → k < st.j + l →
      ds.getD k 0 = (m : Int) + 2 := by
    intro k hk1 hk2
    have h1 : ¬ (k < cntLe ds ((m : Int) + 1)) := by rw [← hj]; omega
    have h2 : k < cntLe ds (((m : Int) + 1) + 1) := by rw [← hcnt]; omega
    rw [lt_cntLe_iff ds _ k hs] at h1 h2
    have hklen : k < ds.length := h2.1
    have hgt : ¬ (ds.getD k 0 ≤ (m : Int) + 1) := fun hle => h1 ⟨hklen, hle⟩
    have hle2 := h2.2
    omega
  refine ⟨?_, ?_, ?_, ?_, ?_, ?_, ?_, ?_⟩
  · show st.j + l = cntLe ds (((m+1 : Nat) : Int) + 1)
    rw [show (((m+1 : Nat)) : Int) + 1 = ((m : Int) + 1) + 1 by push_cast; ring]
    exact hcnt
  · show st.start + (l : Int) = start0 + ((st.j + l : Nat) : Int)
    push_cast
    omega
  · show st.width - (l : Int) = (ds.length : Int) - ((st.j + l : Nat) : Int)
    push_cast
    omega
  · exact hsig'
  · -- deflated columns hold their final iterate in W
    intro k hk r hr hr'
    have hk' : k < st.j + l := hk
    by_cases hm : m % 2 = 0
    · have hi : (2 + (m : Int)) % 2 = 0 := by omega
      dsimp only
      rw [if_pos hi]
      by_cases hkold : k < st.j
      · by_cases hl0 : 0 < l
        · rw [if_pos hl0, copyView_out _ _ _ _ _ r _ (by omega)]
          exact hdefl k hkold r hr hr'
        · rw [if_neg hl0]
          exact hdefl k hkold r hr hr'
      · have hknew : st.j ≤ k := by omega
        have hlpos : 0 < l := by omega
        have hklen : k < ds.length := by omega
        rw [if_pos hlpos, copyView_in _ _ _ _ _ r _ hr hr' (by omega) (by omega),
          show (ds.getD k 0).toNat = m + 2 by
            have := hdegk k hknew hk'; omega]
        refine hemm_next N A1 ss e _ m st.W st.V st.start st.width st.sigma hsig
          r _ hr hr' (by omega) (by omega) ?_ ?_
        · intro x hx hx'
          have := (hact k hknew hklen x hx hx').1
          rwa [srcBuf, if_pos hm] at this
        · have := (hact k hknew hklen r hr hr').2
          rwa [othBuf, if_pos hm] at this
    · have hi : ¬ ((2 + (m : Int)) % 2 = 0) := by omega
      dsimp only
      rw [if_neg hi]
      by_cases hkold : k < st.j
      · rw [hemmView_out _ _ _ _ _ _ _ _ _ _ (by omega)]
        exact hdefl k hkold r hr hr'
      · have hknew : st.j ≤ k := by omega
        have hklen : k < ds.length := by omega
        rw [show (ds.getD k 0).toNat = m + 2 by
            have := hdegk k hknew hk'; omega]
        refine hemm_next N A1 ss e _ m st.V st.W st.start st.width st.sigma hsig
          r _ hr hr' (by omega) (by omega) ?_ ?_
        · intro x hx hx'
          have := (hact k hknew hklen x hx hx').1
          rwa [srcBuf, if_neg hm] at this
        · have := (hact k hknew hklen r hr hr').2
          rwa [othBuf, if_neg hm] at this
  · -- active columns hold the next pair of iterates
    intro k hk1 hk2 r hr hr'
    have hk1' : st.j + l ≤ k := hk1
    have hkj : st.j ≤ k := by omega
    by_cases hm : m % 2 = 0
    · have hi : (2 + (m : Int)) % 2 = 0 := by omega
      have hm1 : ¬ ((m+1) % 2 = 0) := by omega
      constructor
      · rw [srcBuf, if_neg hm1]
        dsimp only
        rw [if_pos hi]
        refine hemm_next N A1 ss e _ m st.W st.V st.start st.width st.sigma hsig
          r _ hr hr' (by omega) (by omega) ?_ ?_
        · intro x hx hx'
          have := (hact k hkj hk2 x hx hx').1
          rwa [srcBuf, if_pos hm] at this
        · have := (hact k hkj hk2 r hr hr').2
          rwa [othBuf, if_pos hm] at this
      · rw [othBuf, if_neg hm1]
        dsimp only
        rw [if_pos hi]
        have hWold : st.W r (start0 + (k : Int)) =
            chebCol N A1 ss e (fun x => V0 x (start0 + (k : Int))) (m+1) r := by
          have := (hact k hkj hk2 r hr hr').1
          rwa [srcBuf, if_pos hm] at this
        by_cases hl0 : 0 < l
        · rw [if_pos hl0, copyView_out _ _ _ _ _ r _ (by omega)]
          exact hWold
        · rw [if_neg hl0]
          exact hWold
    · have hi : ¬ ((2 + (m : Int)) % 2 = 0) := by omega
      have hm1 : (m+1) % 2 = 0 := by omega
      constructor
      · rw [srcBuf, if_pos hm1]
        dsimp only
        rw [if_neg hi]
        refine hemm_next N A1 ss e _ m st.V st.W st.start st.width st.sigma hsig
          r _ hr hr' (by omega) (by omega) ?_ ?_
        · intro x hx hx'
          have := (hact k hkj hk2 x hx hx').1
          rwa [srcBuf, if_neg hm] at this
        · have := (hact k hkj hk2 r hr hr').2
          rwa [othBuf, if_neg hm] at this
      · rw [othBuf, if_pos hm1]
        dsimp only
        rw [if_neg hi]
        have := (hact k hkj hk2 r hr hr').1
        rwa [srcBuf, if_neg hm] at this
  · -- rows outside the operator height are untouched
    intro r c hrc
    constructor
    · dsimp only
      by_cases hi : (2 + (m : Int)) % 2 = 0
      · rw [if_pos hi,
          hemmView_out _ _ _ _ _ _ _ _ _ _ (fun hcon => hrc ⟨hcon.1, hcon.2.1⟩)]
        exact (hrow r c hrc).1
      · rw [if_neg hi]
        exact (hrow r c hrc).1
    · dsimp only
      by_cases hi : (2 + (m : Int)) % 2 = 0
      · rw [if_pos hi]
        by_cases hl0 : 0 < l
        · rw [if_pos hl0,
            copyView_out _ _ _ _ _ r c (fun hcon => hrc ⟨hcon.1, hcon.2.1⟩)]
          exact (hrow r c hrc).2
        · rw [if_neg hl0]
          exact (hrow r c hrc).2
      · rw [if_neg hi,
          hemmView_out _ _ _ _ _ _ _ _ _ _ (fun hcon => hrc ⟨hcon.1, hcon.2.1⟩)]
        exact (hrow r c hrc).2
  · -- columns outside the original range are untouched
    intro r c hc
    constructor
    · dsimp only
      by_cases hi : (2 + (m : Int)) % 2 = 0
      · rw [if_pos hi, hemmView_out _ _ _ _ _ _ _ _ _ _ (by omega)]
        exact (hcol r c hc).1
      · rw [if_neg hi]
        exact (hcol r c hc).1
    · dsimp only
      by_cases hi : (2 + (m : Int)) % 2 = 0
      · rw [if_pos hi]
        by_cases hl0 : 0 < l
        · rw [if_pos hl0, copyView_out _ _ _ _ _ r c (by omega)]
          exact (hcol r c hc).2
        · rw [if_neg hl0]
          exact (hcol r c hc).2
      · rw [if_neg hi, hemmView_out _ _ _ _ _ _ _ _ _ _ (by omega)]
        exact (hcol r c hc).2

/-- The main loop preserves the schedule invariant across any number of
iterations. -/
theorem schedLoop (N : Nat) (A1 : Mat) (ss e : ℚ) (ds : List Int)
    (start0 : Int) (V0 W0 : Mat) (hs : ds.Sorted (· ≤ ·)) (fuel : Nat) :
    ∀ (m : Nat) (st : LoopSt),
      SchedInv N A1 ss e ds start0 V0 W0 m st →
      SchedInv N A1 ss e ds start0 V0 W0 (m + fuel)
        (filterLoop N A1 (some ds) ss e fuel (2 + (m : Int)) st) := by
  induction fuel with
  | zero => intro m st h; exact h
  | succ fuel ih =>
    intro m st h
    have hstep := schedStep N A1 ss e ds start0 V0 W0 hs m st h
    have hrec := ih (m+1) _ hstep
    rw [show m + (fuel + 1) = (m + 1) + fuel by ring]
    show SchedInv N A1 ss e ds start0 V0 W0 (m + 1 + fuel)
      (filterLoop N A1 (some ds) ss e fuel ((2 + (m : Int)) + 1)
        (filterIter N A1 (some ds) ss e (2 + (m : Int)) st))
    rw [show (2 + ((m : Nat) : Int)) + 1 = 2 + (((m+1) : Nat) : Int) by
      push_cast; ring]
    exact hrec

theorem getD_mem (ds : List Int) (k : Nat) (hk : k < ds.length) :
    ds.getD k 0 ∈ ds := by
  rw [List.getD_eq_getElem ds 0 hk]
  exact List.getElem_mem hk

/-- Full characterization of a `filter` call with a sorted positive degree
schedule aligned with the active range : the call returns normally; `A` is
restored exactly; column `start + k` of `W` holds the iterate of the
reference recurrence of degree `degrees[k]` (the scheduled degree, whatever
its relation to `deg`); and every entry of `V` and `W` outside the active
view is unchanged. -/
theorem filter_sched_spec (uplo : Bool) (N : Nat) (A V W : Mat)
    (VH VW WH WW start width deg : Int) (ds : List Int)
    (lambda lower upper : ℚ) (sn : Bool)
    (hs : ds.Sorted (· ≤ ·)) (hpos : ∀ d ∈ ds, 1 ≤ d) (hne : ds ≠ [])
    (hlen : width = (ds.length : Int))
    (hv : validSubB VH VW N (start+width) = true)
    (hw : validSubB WH WW N (start+width) = true) :
    ∃ res : FilterResult,
      filter uplo N A V W VH VW WH WW start width deg (some ds)
          lambda lower upper sn = FilterOut.ok res
      ∧ (∀ r c : Int, res.A r c = A r c)
      ∧ (∀ k : Nat, k < ds.length → ∀ r : Int, 0 ≤ r → r < (N : Int) →
          res.W r (start + (k : Int)) =
            chebCol N (shiftDiag N A (-((upper+lower)/2)))
              ((upper-lower)/2/(lambda - (upper+lower)/2)) ((upper-lower)/2)
              (fun x => V x (start + (k : Int))) (ds.getD k 0).toNat r)
      ∧ (∀ r c : Int, ¬ (0 ≤ r ∧ r < (N : Int)) →
          res.V r c = V r c ∧ res.W r c = W r c)
      ∧ (∀ r c : Int, ¬ (start ≤ c ∧ c < start + width) →
          res.V r c = V r c ∧ res.W r c = W r c)
      ∧ res.scans = (if sn then 2 else 0) := by
  have hlen0 : 0 < ds.length := List.length_pos.mpr hne
  have hlt : ds.length - 1 < ds.length := by omega
  have hget : ds.get? (ds.length - 1) = some (ds.getD (ds.length - 1) 0) := by
    rw [List.get?_eq_getElem?, List.getElem?_eq_getElem hlt,
      List.getD_eq_getElem ds 0 hlt]
  have hlast1 : 1 ≤ ds.getD (ds.length - 1) 0 :=
    hpos _ (getD_mem ds _ hlt)
  have hdm : degmaxOf deg (some ds) =
      some (if deg ≥ ds.getD (ds.length - 1) 0 then deg
        else ds.getD (ds.length - 1) 0) := by
    simp only [degmaxOf, hget]
  set dm : Int := if deg ≥ ds.getD (ds.length - 1) 0 then deg
    else ds.getD (ds.length - 1) 0 with hdmdef
  have hlastdm : ds.getD (ds.length - 1) 0 ≤ dm := by
    rw [hdmdef]
    by_cases hdl : deg ≥ ds.getD (ds.length - 1) 0
    · rw [if_pos hdl]; omega
    · rw [if_neg hdl]
  have hdm1 : 1 ≤ dm := le_trans hlast1 hlastdm
  have hdmne : ¬ (dm = 0) := by omega
  have hdmge : ∀ k : Nat, k < ds.length → ds.getD k 0 ≤ dm := by
    intro k hk
    exact le_trans (getD_le_of_sorted ds k (ds.length - 1) hs (by omega) hlt)
      hlastdm
  have hmain := filter_main_eq uplo N A V W VH VW WH WW start width deg
    (some ds) lambda lower upper sn dm hdm hdmne hv hw
  have hj0n : takeCount 1 ds = cntLe ds 1 := takeCount_eq_cntLe ds 1 hs hpos
  have hj0 : takeCount 1 ds = cntLe ds (((0:Nat) : Int) + 1) := by
    rw [show (((0:Nat)) : Int) + 1 = (1 : Int) by norm_num]
    exact hj0n
  have hInv0 : SchedInv N (shiftDiag N A (-((upper+lower)/2)))
      ((upper-lower)/2/(lambda - (upper+lower)/2)) ((upper-lower)/2)
      ds start V W 0
      ⟨V, hemmView N ((upper-lower)/2/(lambda - (upper+lower)/2)/((upper-lower)/2))
          (shiftDiag N A (-((upper+lower)/2))) V 0 W start width,
        start + (j0Of (some ds) : Int), width - (j0Of (some ds) : Int),
        j0Of (some ds),
        (upper-lower)/2/(lambda - (upper+lower)/2), width⟩ := by
    have hj0' : j0Of (some ds) = takeCount 1 ds := rfl
    have hj0le : takeCount 1 ds ≤ ds.length := by
      rw [hj0]; exact cntLe_le_length ds _
    refine ⟨by rw [hj0', hj0], by rfl, ?_, rfl, ?_, ?_, ?_, ?_⟩
    · show width - ((j0Of (some ds) : Nat) : Int)
        = (ds.length : Int) - ((j0Of (some ds) : Nat) : Int)
      omega
    · -- columns with scheduled degree 1 are already deflated into W
      intro k hk r hr hr'
      have hk' : k < takeCount 1 ds := hk
      have hkc : k < cntLe ds 1 := by rw [← hj0n]; exact hk'
      have hdk : ds.getD k 0 = 1 := by
        rw [lt_cntLe_iff ds 1 k hs] at hkc
        have := hpos _ (getD_mem ds k hkc.1)
        omega
      have hklen : k < ds.length := by
        rw [lt_cntLe_iff ds 1 k hs] at hkc
        exact hkc.1
      show hemmView _ _ _ _ _ _ _ _ r _ = _
      rw [hemmView_in _ _ _ _ _ _ _ _ r _ hr hr' (by omega) (by omega),
        hdk, matMulEntry_eq]
      show _ = chebCol _ _ _ _ _ 1 r
      rw [chebCol_one]
      ring
    · -- active columns hold iterates 1 and 0
      intro k hk1 hk2 r hr hr'
      refine ⟨?_, rfl⟩
      show hemmView _ _ _ _ _ _ _ _ r _ = _
      rw [hemmView_in _ _ _ _ _ _ _ _ r _ hr hr' (by omega) (by omega),
        matMulEntry_eq, chebCol_one]
      ring
    · intro r c hrc
      refine ⟨rfl, ?_⟩
      show hemmView _ _ _ _ _ _ _ _ r c = W r c
      exact hemmView_out _ _ _ _ _ _ _ _ _ _ (fun hcon => hrc ⟨hcon.1, hcon.2.1⟩)
    · intro r c hc
      refine ⟨rfl, ?_⟩
      show hemmView _ _ _ _ _ _ _ _ r c = W r c
      refine hemmView_out _ _ _ _ _ _ _ _ _ _ (fun hcon => hc ?_)
      rw [← hlen]
      exact ⟨hcon.2.2.1, hcon.2.2.2⟩
  have hkey := schedLoop N (shiftDiag N A (-((upper+lower)/2)))
      ((upper-lower)/2/(lambda - (upper+lower)/2)) ((upper-lower)/2)
      ds start V W hs (dm - 1).toNat 0 _ hInv0
  rw [show (2 + (((0:Nat)) : Int)) = (2 : Int) by norm_num, Nat.zero_add]
    at hkey
  have hf : (((dm - 1).toNat : Nat) : Int) = dm - 1 :=
    Int.toNat_of_nonneg (by omega)
  obtain ⟨hjF, hstF, hwdF, hsigF, hdeflF, hactF, hrowF, hcolF⟩ := hkey
  have hjlen : (filterLoop N (shiftDiag N A (-((upper+lower)/2))) (some ds)
      ((upper-lower)/2/(lambda - (upper+lower)/2)) ((upper-lower)/2)
      (dm - 1).toNat 2
      ⟨V, hemmView N ((upper-lower)/2/(lambda - (upper+lower)/2)/((upper-lower)/2))
          (shiftDiag N A (-((upper+lower)/2))) V 0 W start width,
        start + (j0Of (some ds) : Int), width - (j0Of (some ds) : Int),
        j0Of (some ds),
        (upper-lower)/2/(lambda - (upper+lower)/2), width⟩).j = ds.length := by
    rw [hjF, show (((dm - 1).toNat : Nat) : Int) + 1 = dm by omega]
    exact cntLe_eq_length ds dm (fun x hx => by
      obtain ⟨k, hk, hkx⟩ := List.getElem_of_mem hx
      have := hdmge k hk
      rw [List.getD_eq_getElem ds 0 hk] at this
      rw [← hkx]
      exact this)
  rw [hmain]
  refine ⟨_, rfl, ?_, ?_, ?_, ?_, ?_⟩
  · intro r c
    dsimp only
    exact setDiag_shiftDiag N A _ r c
  · intro k hk r hr hr'
    dsimp only
    unfold loopOut
    have hres := hdeflF k (by rw [hjlen]; exact hk) r hr hr'
    by_cases hp : dm % 2 = 0
    · rw [if_pos hp,
        copyView_out _ _ _ _ _ r _ (by
          intro hcon
          have h1 := hcon.2.2.1
          have h2 := hcon.2.2.2
          rw [hwdF, hjlen] at h2
          omega)]
      exact hres
    · rw [if_neg hp]
      exact hres
  · intro r c hrc
    dsimp only
    unfold loopOut
    refine ⟨(hrowF r c hrc).1, ?_⟩
    by_cases hp : dm % 2 = 0
    · rw [if_pos hp,
        copyView_out _ _ _ _ _ r c (fun hcon => hrc ⟨hcon.1, hcon.2.1⟩)]
      exact (hrowF r c hrc).2
    · rw [if_neg hp]
      exact (hrowF r c hrc).2
  · intro r c hc
    dsimp only
    unfold loopOut
    have hc' : ¬ (start ≤ c ∧ c < start + (ds.length : Int)) := by
      rw [← hlen]; exact hc
    refine ⟨(hcolF r c hc').1, ?_⟩
    by_cases hp : dm % 2 = 0
    · rw [if_pos hp,
        copyView_out _ _ _ _ _ r c (by
          intro hcon
          have h1 := hcon.2.2.1
          have h2 := hcon.2.2.2
          rw [hwdF, hjlen] at h2
          rw [hstF, hjlen] at h1
          omega)]
      exact (hcolF r c hc').2
    · rw [if_neg hp]
      exact (hcolF r c hc').2
  · dsimp only
    cases sn <;> rfl

/-- A `filter` call whose degree read is out of bounds returns the undefined
outcome. -/
theorem filter_oob_eq (uplo : Bool) (N : Nat) (A V W : Mat)
    (VH VW WH WW start width deg : Int) (degrees : Option (List Int))
    (lambda lower upper : ℚ) (sn : Bool)
    (hdm : degmaxOf deg degrees = none) :
    filter uplo N A V W VH VW WH WW start width deg degrees lambda lower upper sn
      = FilterOut.oobDegrees := by
  simp only [filter, hdm]

/-- A `filter` call with zero maximum degree returns immediately with nothing
changed. -/
theorem filter_zero_eq (uplo : Bool) (N : Nat) (A V W : Mat)
    (VH VW WH WW start width deg : Int) (degrees : Option (List Int))
    (lambda lower upper : ℚ) (sn : Bool)
    (hdm : degmaxOf deg degrees = some 0) :
    filter uplo N A V W VH VW WH WW start width deg degrees lambda lower upper sn
      = FilterOut.ok ⟨0, A, V, W, 0⟩ := by
  simp only [filter, hdm]
  exact if_pos trivial

/-- A `filter` call that fails the submatrix assertion stops right there,
with the diagonal of `A` still shifted by `-c` (the shift at lines 88–90 of
filter.hpp happens before the assertions at lines 95–96). -/
theorem filter_assertFail_eq (uplo : Bool) (N : Nat) (A V W : Mat)
    (VH VW WH WW start width deg : Int) (degrees : Option (List Int))
    (lambda lower upper : ℚ) (sn : Bool) (dm : Int)
    (hdm : degmaxOf deg degrees = some dm) (hne : ¬ dm = 0)
    (hass : ¬ (validSubB VH VW N (start+width) = true ∧
      validSubB WH WW N (start+width) = true)) :
    filter uplo N A V W VH VW WH WW start width deg degrees lambda lower upper sn
      = FilterOut.assertFail (shiftDiag N A (-((upper+lower)/2))) V W := by
  simp only [filter, hdm]
  rw [if_neg hne, if_pos hass]

theorem takeCount_le_length (i : Int) (l : List Int) :
    takeCount i l ≤ l.length := by
  induction l with
  | nil => exact le_refl _
  | cons d tl ih =>
    unfold takeCount
    by_cases hd : d = i
    · rw [if_pos hd]
      simpa using ih
    · rw [if_neg hd]
      simp

/-- Frame invariant of the main loop, independent of any ordering assumption
on the schedule : the active range stays inside the original one (the sum
`start + width` is preserved by every deflation), the cursor stays inside
the schedule, and every entry outside the original view still holds its
initial value. -/
def FrameInv (N : Nat) (degrees : Option (List Int)) (start0 width0 : Int)
    (V0 W0 : Mat) (st : LoopSt) : Prop :=
  start0 ≤ st.start ∧
  st.start + st.width ≤ start0 + width0 ∧
  (∀ ds, degrees = some ds → st.j ≤ ds.length ∧
    st.start + ((ds.length - st.j : Nat) : Int) ≤ start0 + width0) ∧
  (∀ r c : Int, ¬ (0 ≤ r ∧ r < (N : Int)) →
    st.V r c = V0 r c ∧ st.W r c = W0 r c) ∧
  (∀ r c : Int, ¬ (start0 ≤ c ∧ c < start0 + width0) →
    st.V r c = V0 r c ∧ st.W r c = W0 r c)

theorem frameStep (N : Nat) (A1 : Mat) (degrees : Option (List Int))
    (ss e : ℚ) (start0 width0 : Int) (V0 W0 : Mat) (i : Int) (st : LoopSt)
    (h : FrameInv N degrees start0 width0 V0 W0 st) :
    FrameInv N degrees start0 width0 V0 W0
      (filterIter N A1 degrees ss e i st) := by
  obtain ⟨h1, h2, h3, hrow, hcol⟩ := h
  have hVW : ∀ r c : Int,
      (¬ (0 ≤ r ∧ r < (N : Int)) ∨ ¬ (start0 ≤ c ∧ c < start0 + width0)) →
      hemmView N (2*(1/(2/ss - st.sigma))/e) A1 st.W
          (-(st.sigma*(1/(2/ss - st.sigma)))) st.V st.start st.width r c
        = st.V r c ∧
      hemmView N (2*(1/(2/ss - st.sigma))/e) A1 st.V
          (-(st.sigma*(1/(2/ss - st.sigma)))) st.W st.start st.width r c
        = st.W r c := by
    intro r c hout
    have hcond : ¬ (0 ≤ r ∧ r < (N : Int) ∧ st.start ≤ c ∧ c < st.start + st.width) := by
      rcases hout with hout | hout
      · exact fun hcon => hout ⟨hcon.1, hcon.2.1⟩
      · exact fun hcon => hout ⟨by omega, by omega⟩
    exact ⟨hemmView_out _ _ _ _ _ _ _ _ _ _ hcond,
      hemmView_out _ _ _ _ _ _ _ _ _ _ hcond⟩
  cases degrees with
  | none =>
    rw [filterIter_none_eq]
    refine ⟨by simpa using h1, by simpa using h2, by simp, ?_, ?_⟩
    · intro r c hrc
      by_cases hi : i % 2 = 0
      · exact ⟨by
          show (if i % 2 = 0 then _ else st.V) r c = V0 r c
          rw [if_pos hi, (hVW r c (Or.inl hrc)).1]
          exact (hrow r c hrc).1, by
          show (if i % 2 = 0 then st.W else _) r c = W0 r c
          rw [if_pos hi]
          exact (hrow r c hrc).2⟩
      · exact ⟨by
          show (if i % 2 = 0 then _ else st.V) r c = V0 r c
          rw [if_neg hi]
          exact (hrow r c hrc).1, by
          show (if i % 2 = 0 then st.W else _) r c = W0 r c
          rw [if_neg hi, (hVW r c (Or.inl hrc)).2]
          exact (hrow r c hrc).2⟩
    · intro r c hc
      by_cases hi : i % 2 = 0
      · exact ⟨by
          show (if i % 2 = 0 then _ else st.V) r c = V0 r c
          rw [if_pos hi, (hVW r c (Or.inr hc)).1]
          exact (hcol r c hc).1, by
          show (if i % 2 = 0 then st.W else _) r c = W0 r c
          rw [if_pos hi]
          exact (hcol r c hc).2⟩
      · exact ⟨by
          show (if i % 2 = 0 then _ else st.V) r c = V0 r c
          rw [if_neg hi]
          exact (hcol r c hc).1, by
          show (if i % 2 = 0 then st.W else _) r c = W0 r c
          rw [if_neg hi, (hVW r c (Or.inr hc)).2]
          exact (hcol r c hc).2⟩
  | some ds =>
    rw [filterIter_some_eq]
    have hl : takeCount i (ds.drop st.j) ≤ ds.length - st.j := by
      have := takeCount_le_length i (ds.drop st.j)
      simpa using this
    have hjds := h3 ds rfl
    have hj1 := hjds.1
    have hj2 := hjds.2
    refine ⟨by dsimp only; omega, by dsimp only; omega, ?_, ?_, ?_⟩
    · intro ds' hds'
      injection hds' with hh
      subst hh
      constructor
      · dsimp only; omega
      · dsimp only; omega
    · intro r c hrc
      constructor
      · show (if i % 2 = 0 then _ else st.V) r c = V0 r c
        by_cases hi : i % 2 = 0
        · rw [if_pos hi, (hVW r c (Or.inl hrc)).1]
          exact (hrow r c hrc).1
        · rw [if_neg hi]
          exact (hrow r c hrc).1
      · dsimp only
        by_cases hi : i % 2 = 0
        · rw [if_pos hi]
          by_cases hl0 : 0 < takeCount i (ds.drop st.j)
          · rw [if_pos hl0,
              copyView_out _ _ _ _ _ r c (fun hcon => hrc ⟨hcon.1, hcon.2.1⟩)]
            exact (hrow r c hrc).2
          · rw [if_neg hl0]
            exact (hrow r c hrc).2
        · rw [if_neg hi, (hVW r c (Or.inl hrc)).2]
          exact (hrow r c hrc).2
    · intro r c hc
      constructor
      · show (if i % 2 = 0 then _ else st.V) r c = V0 r c
        by_cases hi : i % 2 = 0
        · rw [if_pos hi, (hVW r c (Or.inr hc)).1]
          exact (hcol r c hc).1
        · rw [if_neg hi]
          exact (hcol r c hc).1
      · dsimp only
        by_cases hi : i % 2 = 0
        · rw [if_pos hi]
          by_cases hl0 : 0 < takeCount i (ds.drop st.j)
          · rw [if_pos hl0, copyView_out _ _ _ _ _ r c (by omega)]
            exact (hcol r c hc).2
          · rw [if_neg hl0]
            exact (hcol r c hc).2
        · rw [if_neg hi, (hVW r c (Or.inr hc)).2]
          exact (hcol r c hc).2

/-- The main loop preserves the frame invariant. -/
theorem frameLoop (N : Nat) (A1 : Mat) (degrees : Option (List Int))
    (ss e : ℚ) (start0 width0 : Int) (V0 W0 : Mat) (fuel : Nat) :
    ∀ (i : Int) (st : LoopSt),
      FrameInv N degrees start0 width0 V0 W0 st →
      FrameInv N degrees start0 width0 V0 W0
        (filterLoop N A1 degrees ss e fuel i st) := by
  induction fuel with
  | zero => intro i st h; exact h
  | succ fuel ih =>
    intro i st h
    exact ih (i+1) _ (frameStep N A1 degrees ss e start0 width0 V0 W0 i st h)

/-! Concrete inputs used to instantiate the theorems: a 1×1 operator with
entry 2, an all-ones input block, an all-zeros output block, spectral
parameters `lower = -1`, `upper = 1`, `lambda = 3` (so `c = 0`, `e = 1`,
`sigma_scale = 1/3`). -/

def Acx : Mat := fun r c => if r = 0 ∧ c = 0 then 2 else 0

def Vcx : Mat := fun _ _ => 1

def Wcx : Mat := fun _ _ => 0

/-- Claim C6 : if the maximum degree is zero (`deg = 0` and
`degrees = NULL`, so `degmax = 0`), the call is a no-op — it returns 0 and
leaves `A`, `V` and `W` untouched, performing no diagonal shift, no matrix
multiply and no NaN scan. -/
theorem claim_C6_zero_degree_noop (uplo : Bool) (N : Nat) (A V W : Mat)
    (VH VW WH WW start width : Int) (lambda lower upper : ℚ) (sn : Bool) :
    filter uplo N A V W VH VW WH WW start width 0 none lambda lower upper sn
      = FilterOut.ok ⟨0, A, V, W, 0⟩ :=
  filter_zero_eq uplo N A V W VH VW WH WW start width 0 none
    lambda lower upper sn rfl

/-- Claim C10 : with a non-null schedule the routine unconditionally reads
`degrees[deglen-1]` to determine the maximum degree, so that read is defined
exactly when `deglen ≥ 1`; with `deglen = 0` the index is out of bounds and
the call has no defined result. -/
theorem claim_C10_deglen_zero_oob (deg : Int) (ds : List Int) (uplo : Bool)
    (N : Nat) (A V W : Mat) (VH VW WH WW start width : Int)
    (lambda lower upper : ℚ) (sn : Bool) :
    (degmaxOf deg (some ds)).isSome = !ds.isEmpty
    ∧ filter uplo N A V W VH VW WH WW start width deg (some [])
        lambda lower upper sn = FilterOut.oobDegrees := by
  constructor
  · cases ds with
    | nil => rfl
    | cons d tl =>
      have hlt : (d :: tl).length - 1 < (d :: tl).length := by simp
      simp only [degmaxOf, List.get?_eq_getElem?,
        List.getElem?_eq_getElem hlt]
      rfl
  · exact filter_oob_eq uplo N A V W VH VW WH WW start width deg (some [])
      lambda lower upper sn rfl

/-- Claim C4 : on every normal return the matrix `A` is numerically identical
to its entry state; the diagonal saved before the in-place shift
`A ← A − cI` is written back verbatim at the end, for every degree schedule
and width. -/
theorem claim_C4_operator_restored (uplo : Bool) (N : Nat) (A V W : Mat)
    (VH VW WH WW start width deg : Int) (degrees : Option (List Int))
    (lambda lower upper : ℚ) (sn : Bool)
    (h : (filter uplo N A V W VH VW WH WW start width deg degrees
        lambda lower upper sn).isOk = true) :
    ∀ r c : Int,
      FilterOut.getA (filter uplo N A V W VH VW WH WW start width deg degrees
        lambda lower upper sn) r c = A r c := by
  intro r c
  cases hdm : degmaxOf deg degrees with
  | none =>
    rw [filter_oob_eq uplo N A V W VH VW WH WW start width deg degrees
      lambda lower upper sn hdm] at h
    exact absurd h (by simp [FilterOut.isOk])
  | some dm =>
    by_cases h0 : dm = 0
    · subst h0
      rw [filter_zero_eq uplo N A V W VH VW WH WW start width deg degrees
        lambda lower upper sn hdm]
      rfl
    · by_cases hass : validSubB VH VW N (start+width) = true ∧
          validSubB WH WW N (start+width) = true
      · rw [filter_main_eq uplo N A V W VH VW WH WW start width deg degrees
          lambda lower upper sn dm hdm h0 hass.1 hass.2]
        exact setDiag_shiftDiag N A _ r c
      · rw [filter_assertFail_eq uplo N A V W VH VW WH WW start width deg
          degrees lambda lower upper sn dm hdm h0 hass] at h
        exact absurd h (by simp [FilterOut.isOk])

/-- Witness for C4 at a concrete input. -/
theorem claim_C4_witness :
    FilterOut.getA (filter true 1 Acx Vcx Wcx 4 4 4 4 0 1 2 none 3 (-1) 1 true) 0 0
      = Acx 0 0 :=
  claim_C4_operator_restored true 1 Acx Vcx Wcx 4 4 4 4 0 1 2 none 3 (-1) 1
    true (by decide) 0 0

/-- Claim C5 : for every valid call with `degrees = NULL` the returned cost
metric is exactly `width * degmax` with `degmax = deg` — the active width
never shrinks, and `width` is accumulated once for the degree-1 multiply and
once per loop iteration. -/
theorem claim_C5_cost_metric (uplo : Bool) (N : Nat) (A V W : Mat)
    (VH VW WH WW start width deg : Int) (lambda lower upper : ℚ) (sn : Bool)
    (hdeg : 0 ≤ deg)
    (hv : validSubB VH VW N (start+width) = true)
    (hw : validSubB WH WW N (start+width) = true) :
    (filter uplo N A V W VH VW WH WW start width deg none
        lambda lower upper sn).isOk = true
    ∧ FilterOut.getRet (filter uplo N A V W VH VW WH WW start width deg none
        lambda lower upper sn) = width * deg := by
  by_cases h0 : deg = 0
  · subst h0
    rw [filter_zero_eq uplo N A V W VH VW WH WW start width 0 none
      lambda lower upper sn rfl]
    exact ⟨rfl, by show (0:Int) = width * 0; ring⟩
  · obtain ⟨res, heq, hret, _, _, _, _, _⟩ := filter_none_spec uplo N A V W
      VH VW WH WW start width deg lambda lower upper sn (by omega) hv hw
    rw [heq]
    exact ⟨rfl, hret⟩

/-- Witness for C5 at a concrete input (`width = 2`, `deg = 3`). -/
theorem claim_C5_witness :
    (filter true 1 Acx Vcx Wcx 4 4 4 4 0 2 3 none 3 (-1) 1 false).isOk = true
    ∧ FilterOut.getRet (filter true 1 Acx Vcx Wcx 4 4 4 4 0 2 3 none 3 (-1) 1
        false) = 2 * 3 :=
  claim_C5_cost_metric true 1 Acx Vcx Wcx 4 4 4 4 0 2 3 3 (-1) 1 false
    (by decide) (by decide) (by decide)

/-- Claim C2 is contradicted by the code.  The claim (and the doc comment at
filter.hpp line 41) say a vector with schedule entry `degrees[k]` is filtered
with degree `min(degrees[k], deg)`, never more than `deg`.  The code instead
computes `degmax = max(deg, degrees[deglen-1])` (line 82) and deflates only
at `degrees[j] == i` (line 200), so the vector receives degree `degrees[k]`.
At `deg = 1`, `degrees = [3]`, the single vector receives three multiplies —
the cost metric is 3, not 1, and the result in W is the degree-3 iterate
`26/99`, different from the degree-1 result `2/3` produced by the same call
with the schedule removed and `deg = 1` (which is what `min(3, 1) = 1`
filtering would return). -/
theorem claim_C2_cap_not_applied :
    FilterOut.getRet (filter true 1 Acx Vcx Wcx 4 4 4 4 0 1 1 (some [3]) 3
      (-1) 1 false) = 3
    ∧ FilterOut.getW (filter true 1 Acx Vcx Wcx 4 4 4 4 0 1 1 (some [3]) 3
        (-1) 1 false) 0 0 = 26/99
    ∧ FilterOut.getW (filter true 1 Acx Vcx Wcx 4 4 4 4 0 1 1 none 3
        (-1) 1 false) 0 0 = 2/3
    ∧ ¬ (FilterOut.getW (filter true 1 Acx Vcx Wcx 4 4 4 4 0 1 1 (some [3]) 3
          (-1) 1 false) 0 0
        = FilterOut.getW (filter true 1 Acx Vcx Wcx 4 4 4 4 0 1 1 none 3
          (-1) 1 false) 0 0) := by
  have h1 : FilterOut.getRet (filter true 1 Acx Vcx Wcx 4 4 4 4 0 1 1
      (some [3]) 3 (-1) 1 false) = 3 := by
    norm_num [filter, degmaxOf, takeCount, validSubB, isnanQ, filterLoop,
      filterIter, hemmView, copyView, matMulEntry, matColEntry, shiftDiag,
      setDiag, getDiag, Finset.sum_range_succ, Finset.sum_range_zero,
      Acx, Vcx, Wcx, FilterOut.getRet]
  have h2 : FilterOut.getW (filter true 1 Acx Vcx Wcx 4 4 4 4 0 1 1
      (some [3]) 3 (-1) 1 false) 0 0 = 26/99 := by
    norm_num [filter, degmaxOf, takeCount, validSubB, isnanQ, filterLoop,
      filterIter, hemmView, copyView, matMulEntry, matColEntry, shiftDiag,
      setDiag, getDiag, Finset.sum_range_succ, Finset.sum_range_zero,
      Acx, Vcx, Wcx, FilterOut.getW]
  have h3 : FilterOut.getW (filter true 1 Acx Vcx Wcx 4 4 4 4 0 1 1
      none 3 (-1) 1 false) 0 0 = 2/3 := by
    norm_num [filter, degmaxOf, takeCount, validSubB, isnanQ, filterLoop,
      filterIter, hemmView, copyView, matMulEntry, matColEntry, shiftDiag,
      setDiag, getDiag, Finset.sum_range_succ, Finset.sum_range_zero,
      Acx, Vcx, Wcx, FilterOut.getW]
  refine ⟨h1, h2, h3, ?_⟩
  rw [h2, h3]
  norm_num

/-- Claim C3 : on every valid call, every column that was in the active range
`[start, start+width)` on entry holds its final filtered result in the
corresponding column of W on exit — the reference-recurrence iterate of its
effective degree (`deg` without a schedule, the scheduled degree with one).
Columns deflating at an even iteration are copied from V into W at deflation
time, and the final even-`degmax` copy moves the remaining active columns. -/
theorem claim_C3_final_result_in_W (uplo : Bool) (N : Nat) (A V W : Mat)
    (VH VW WH WW start width deg : Int) (degrees : Option (List Int))
    (lambda lower upper : ℚ) (sn : Bool)
    (hnone : degrees = none → 1 ≤ deg)
    (hsome : ∀ ds, degrees = some ds → ds.Sorted (· ≤ ·)
      ∧ (∀ d ∈ ds, 1 ≤ d) ∧ ds ≠ [] ∧ width = (ds.length : Int))
    (hv : validSubB VH VW N (start+width) = true)
    (hw : validSubB WH WW N (start+width) = true) :
    (filter uplo N A V W VH VW WH WW start width deg degrees
        lambda lower upper sn).isOk = true
    ∧ ∀ k : Nat, (k : Int) < width → ∀ r : Int, 0 ≤ r → r < (N : Int) →
        FilterOut.getW (filter uplo N A V W VH VW WH WW start width deg degrees
            lambda lower upper sn) r (start + (k : Int))
          = chebCol N (shiftDiag N A (-((upper+lower)/2)))
              ((upper-lower)/2/(lambda - (upper+lower)/2)) ((upper-lower)/2)
              (fun x => V x (start + (k : Int)))
              (match degrees with
                | none => deg.toNat
                | some ds => (ds.getD k 0).toNat) r := by
  cases degrees with
  | none =>
    obtain ⟨res, heq, _, _, hWval, _, _, _⟩ := filter_none_spec uplo N A V W
      VH VW WH WW start width deg lambda lower upper sn (hnone rfl) hv hw
    rw [heq]
    refine ⟨rfl, ?_⟩
    intro k hk r hr hr'
    exact hWval (start + (k : Int)) (by omega) (by omega) r hr hr'
  | some ds =>
    obtain ⟨hsort, hpos, hne, hlen⟩ := hsome ds rfl
    obtain ⟨res, heq, _, hWval, _, _, _⟩ := filter_sched_spec uplo N A V W
      VH VW WH WW start width deg ds lambda lower upper sn hsort hpos hne
      hlen hv hw
    rw [heq]
    refine ⟨rfl, ?_⟩
    intro k hk r hr hr'
    exact hWval k (by omega) r hr hr'

/-- Witness for C3 at a concrete input (schedule `[1]`, `deg = 5`). -/
theorem claim_C3_witness :
    FilterOut.getW (filter true 1 Acx Vcx Wcx 4 4 4 4 0 1 5 (some [1]) 3
        (-1) 1 false) 0 (0 + ((0:Nat) : Int))
      = chebCol 1 (shiftDiag 1 Acx (-((1 + -1)/2)))
          ((1 - -1)/2/(3 - (1 + -1)/2)) ((1 - -1)/2)
          (fun x => Vcx x (0 + ((0:Nat) : Int)))
          (match (some [1] : Option (List Int)) with
            | none => (5:Int).toNat
            | some ds => (ds.getD 0 0).toNat) 0 :=
  (claim_C3_final_result_in_W true 1 Acx Vcx Wcx 4 4 4 4 0 1 5 (some [1]) 3
    (-1) 1 false (fun hcon => nomatch hcon)
    (fun ds hds => by
      injection hds with hh
      subst hh
      refine ⟨?_, by decide, by decide, by decide⟩
      exact List.sorted_singleton 1)
    (by decide) (by decide)).2 0 (by decide) 0 (by decide) (by decide)

set_option linter.unusedVariables false in
/-- Claim C1 : with the degree schedule `[1, 2, 3]` over three vectors and
`deg = 3`, and a well-conditioned choice of `lower < upper < lambda`, the
batched deflating call produces, column by column, the same result in W as
three separate calls with `degrees = NULL` and `deg` equal to 1, 2, 3, each
applied to the corresponding single column. -/
theorem claim_C1_batched_matches_single (uplo : Bool) (N : Nat) (A V W : Mat)
    (VH VW WH WW start : Int) (lambda lower upper : ℚ) (sn : Bool)
    (hstart : 0 ≤ start)
    (hv : validSubB VH VW N (start+3) = true)
    (hw : validSubB WH WW N (start+3) = true)
    (hwc1 : lower < upper) (hwc2 : upper < lambda) :
    ∀ k : Nat, k < 3 → ∀ r : Int,
      FilterOut.getW (filter uplo N A V W VH VW WH WW start 3 3
          (some [1, 2, 3]) lambda lower upper sn) r (start + (k : Int))
      = FilterOut.getW (filter uplo N A V W VH VW WH WW (start + (k : Int)) 1
          ((k : Int) + 1) none lambda lower upper sn) r (start + (k : Int)) := by
  intro k hk r
  have hv' : validSubB VH VW N (start + (k : Int) + 1) = true := by
    simp only [validSubB, Bool.and_eq_true, decide_eq_true_eq] at hv ⊢
    omega
  have hw' : validSubB WH WW N (start + (k : Int) + 1) = true := by
    simp only [validSubB, Bool.and_eq_true, decide_eq_true_eq] at hw ⊢
    omega
  obtain ⟨resB, heqB, _, hWvalB, hrowB, hcolB, _⟩ := filter_sched_spec uplo N
    A V W VH VW WH WW start 3 3 [1, 2, 3] lambda lower upper sn
    (by decide) (by decide) (by decide) (by decide) hv hw
  obtain ⟨resS, heqS, _, _, hWvalS, hrowS, hcolS, _⟩ := filter_none_spec uplo N
    A V W VH VW WH WW (start + (k : Int)) 1 ((k : Int) + 1) lambda lower upper
    sn (by omega) hv' hw'
  rw [heqB, heqS]
  simp only [FilterOut.getW]
  by_cases hr : 0 ≤ r ∧ r < (N : Int)
  · have hB := hWvalB k (by simp only [List.length_cons, List.length_nil]; omega)
      r hr.1 hr.2
    have hS := hWvalS (start + (k : Int)) (by omega) (by omega) r hr.1 hr.2
    have hidx : (([1, 2, 3] : List Int).getD k 0).toNat = ((k : Int) + 1).toNat := by
      interval_cases k <;> rfl
    rw [hB, hS, hidx]
  · rw [(hrowB r (start + (k : Int)) hr).2, (hrowS r (start + (k : Int)) hr).2]

/-- Witness for C1 at a concrete input (second column, `k = 1`). -/
theorem claim_C1_witness :
    FilterOut.getW (filter true 1 Acx Vcx Wcx 4 4 4 4 0 3 3 (some [1, 2, 3])
        3 (-1) 1 false) 0 (0 + ((1:Nat) : Int))
      = FilterOut.getW (filter true 1 Acx Vcx Wcx 4 4 4 4 (0 + ((1:Nat) : Int))
          1 (((1:Nat) : Int) + 1) none 3 (-1) 1 false) 0 (0 + ((1:Nat) : Int)) :=
  claim_C1_batched_matches_single true 1 Acx Vcx Wcx 4 4 4 4 0 3 (-1) 1 false
    (by decide) (by decide) (by decide) (by norm_num) (by norm_num)
    1 (by decide) 0

/-- Claim C8 (corrected reading of the error path) : the submatrix assertion
on V and W runs only after the diagonal of A has been shifted by `-c`; when
the assertion fails, the routine stops with A's diagonal still shifted, not
restored — the call is not atomic on this error path. -/
theorem claim_C8_assert_after_shift (uplo : Bool) (N : Nat) (A V W : Mat)
    (VH VW WH WW start width deg : Int) (degrees : Option (List Int))
    (lambda lower upper : ℚ) (sn : Bool) (dm : Int)
    (hdm : degmaxOf deg degrees = some dm) (hne : ¬ dm = 0)
    (hass : ¬ (validSubB VH VW N (start+width) = true ∧
      validSubB WH WW N (start+width) = true)) :
    filter uplo N A V W VH VW WH WW start width deg degrees lambda lower upper
        sn = FilterOut.assertFail (shiftDiag N A (-((upper+lower)/2))) V W
    ∧ ∀ r : Int, 0 ≤ r → r < (N : Int) →
        shiftDiag N A (-((upper+lower)/2)) r r = A r r - (upper+lower)/2 := by
  refine ⟨filter_assertFail_eq uplo N A V W VH VW WH WW start width deg
    degrees lambda lower upper sn dm hdm hne hass, ?_⟩
  intro r h1 h2
  unfold shiftDiag
  rw [if_pos ⟨rfl, h1, h2⟩]
  ring

/-- Witness for C8 at a concrete input (V has no columns: `VH = 0 < N`). -/
theorem claim_C8_witness :
    filter true 1 Acx Vcx Wcx 0 4 4 4 0 1 1 none 3 (-1) 1 false
      = FilterOut.assertFail (shiftDiag 1 Acx (-((1 + -1)/2))) Vcx Wcx
    ∧ shiftDiag 1 Acx (-((1 + -1)/2)) 0 0 = Acx 0 0 - (1 + -1)/2 :=
  ⟨(claim_C8_assert_after_shift true 1 Acx Vcx Wcx 0 4 4 4 0 1 1 none 3
      (-1) 1 false 1 rfl (by decide) (by decide)).1,
   (claim_C8_assert_after_shift true 1 Acx Vcx Wcx 0 4 4 4 0 1 1 none 3
      (-1) 1 false 1 rfl (by decide) (by decide)).2 0 (by decide) (by decide)⟩

/-- Counterexample to claim C7 : the NaN scan is not off by default.  Line 17
of filter.hpp is `#define SEARCH_NAN 1`, so the macro is defined in the
shipped header, and a default-configuration call that reaches the first
multiply executes both scan blocks (`scans = 2`, not `0`). -/
theorem claim_C7_counterexample :
    SEARCH_NAN_defined = true
    ∧ ¬ (FilterOut.getScans (filter true 1 Acx Vcx Wcx 4 4 4 4 0 1 1 none 3
        (-1) 1 SEARCH_NAN_defined) = 0) := by
  refine ⟨rfl, ?_⟩
  rw [show SEARCH_NAN_defined = true from rfl,
    filter_main_eq true 1 Acx Vcx Wcx 4 4 4 4 0 1 1 none 3 (-1) 1 true 1 rfl
      (by decide) (by decide) (by decide)]
  decide

/-- Amended claim C7 : the non-finite-value scan around the first multiply is
compile-time configurable through the `SEARCH_NAN` macro, but filter.hpp
itself defines the macro, so in the default configuration the scan IS
performed — twice (before and after the first multiply) on every call that
reaches the main path — and the job is aborted only if a scan detects a
non-finite value.  With the macro removed no scan runs. -/
theorem claim_C7_amended_scan_on_by_default (uplo : Bool) (N : Nat)
    (A V W : Mat) (VH VW WH WW start width deg : Int)
    (degrees : Option (List Int)) (lambda lower upper : ℚ) :
    ((filter uplo N A V W VH VW WH WW start width deg degrees lambda lower
        upper false).isOk = true →
      FilterOut.getScans (filter uplo N A V W VH VW WH WW start width deg
        degrees lambda lower upper false) = 0)
    ∧ (∀ dm : Int, degmaxOf deg degrees = some dm → ¬ dm = 0 →
        validSubB VH VW N (start+width) = true →
        validSubB WH WW N (start+width) = true →
        FilterOut.getScans (filter uplo N A V W VH VW WH WW start width deg
          degrees lambda lower upper true) = 2) := by
  constructor
  · intro h
    cases hdm : degmaxOf deg degrees with
    | none =>
      rw [filter_oob_eq uplo N A V W VH VW WH WW start width deg degrees
        lambda lower upper false hdm] at h
      exact absurd h (by simp [FilterOut.isOk])
    | some dm =>
      by_cases h0 : dm = 0
      · subst h0
        rw [filter_zero_eq uplo N A V W VH VW WH WW start width deg degrees
          lambda lower upper false hdm]
        rfl
      · by_cases hass : validSubB VH VW N (start+width) = true ∧
            validSubB WH WW N (start+width) = true
        · rw [filter_main_eq uplo N A V W VH VW WH WW start width deg degrees
            lambda lower upper false dm hdm h0 hass.1 hass.2]
          rfl
        · rw [filter_assertFail_eq uplo N A V W VH VW WH WW start width deg
            degrees lambda lower upper false dm hdm h0 hass] at h
          exact absurd h (by simp [FilterOut.isOk])
  · intro dm hdm h0 hv hw
    rw [filter_main_eq uplo N A V W VH VW WH WW start width deg degrees
      lambda lower upper true dm hdm h0 hv hw]
    rfl

/-- Witness for the amended C7 at a concrete input. -/
theorem claim_C7_witness :
    FilterOut.getScans (filter true 1 Acx Vcx Wcx 4 4 4 4 0 1 1 none 3
        (-1) 1 false) = 0
    ∧ FilterOut.getScans (filter true 1 Acx Vcx Wcx 4 4 4 4 0 1 1 none 3
        (-1) 1 true) = 2 :=
  ⟨(claim_C7_amended_scan_on_by_default true 1 Acx Vcx Wcx 4 4 4 4 0 1 1 none
      3 (-1) 1).1 (by decide),
   (claim_C7_amended_scan_on_by_default true 1 Acx Vcx Wcx 4 4 4 4 0 1 1 none
      3 (-1) 1).2 1 rfl (by decide) (by decide) (by decide)⟩

/-- Claim C9 : throughout every valid call the sum `start + width` is
preserved by every deflation, so every internal view of V and W stays inside
the original column range; columns of V and W outside `[start, start+width)`
are never written and are unchanged on return. -/
theorem claim_C9_outside_columns_unchanged (uplo : Bool) (N : Nat)
    (A V W : Mat) (VH VW WH WW start width deg : Int)
    (degrees : Option (List Int)) (lambda lower upper : ℚ) (sn : Bool)
    (hsome : ∀ ds, degrees = some ds → (ds.length : Int) ≤ width)
    (h : (filter uplo N A V W VH VW WH WW start width deg degrees
        lambda lower upper sn).isOk = true) :
    ∀ c : Int, c < start ∨ start + width ≤ c → ∀ r : Int,
      FilterOut.getV (filter uplo N A V W VH VW WH WW start width deg degrees
        lambda lower upper sn) r c = V r c
      ∧ FilterOut.getW (filter uplo N A V W VH VW WH WW start width deg
          degrees lambda lower upper sn) r c = W r c := by
  intro c hc r
  cases hdm : degmaxOf deg degrees with
  | none =>
    rw [filter_oob_eq uplo N A V W VH VW WH WW start width deg degrees
      lambda lower upper sn hdm] at h
    exact absurd h (by simp [FilterOut.isOk])
  | some dm =>
    by_cases h0 : dm = 0
    · subst h0
      rw [filter_zero_eq uplo N A V W VH VW WH WW start width deg degrees
        lambda lower upper sn hdm]
      exact ⟨rfl, rfl⟩
    · by_cases hass : validSubB VH VW N (start+width) = true ∧
          validSubB WH WW N (start+width) = true
      · rw [filter_main_eq uplo N A V W VH VW WH WW start width deg degrees
          lambda lower upper sn dm hdm h0 hass.1 hass.2]
        have hInv0 : FrameInv N degrees start width V W
            ⟨V, hemmView N ((upper-lower)/2/(lambda - (upper+lower)/2)/((upper-lower)/2))
                (shiftDiag N A (-((upper+lower)/2))) V 0 W start width,
              start + (j0Of degrees : Int), width - (j0Of degrees : Int),
              j0Of degrees,
              (upper-lower)/2/(lambda - (upper+lower)/2), width⟩ := by
          refine ⟨by dsimp only; omega, by dsimp only; omega, ?_, ?_, ?_⟩
          · intro ds hds
            have hlen := hsome ds hds
            have hj0 : j0Of degrees = takeCount 1 ds := by rw [hds]; rfl
            have hj0le : takeCount 1 ds ≤ ds.length := takeCount_le_length 1 ds
            constructor
            · dsimp only; omega
            · dsimp only; rw [hj0]; omega
          · intro r' c' hrc
            refine ⟨rfl, ?_⟩
            show hemmView _ _ _ _ _ _ _ _ r' c' = W r' c'
            exact hemmView_out _ _ _ _ _ _ _ _ _ _
              (fun hcon => hrc ⟨hcon.1, hcon.2.1⟩)
          · intro r' c' hc'
            refine ⟨rfl, ?_⟩
            show hemmView _ _ _ _ _ _ _ _ r' c' = W r' c'
            exact hemmView_out _ _ _ _ _ _ _ _ _ _
              (fun hcon => hc' ⟨hcon.2.2.1, hcon.2.2.2⟩)
        have hF := frameLoop N (shiftDiag N A (-((upper+lower)/2))) degrees
          ((upper-lower)/2/(lambda - (upper+lower)/2)) ((upper-lower)/2)
          start width V W (dm - 1).toNat 2 _ hInv0
        obtain ⟨hf1, hf2, _, _, hfcol⟩ := hF
        have hout : ¬ (start ≤ c ∧ c < start + width) := by omega
        constructor
        · simp only [FilterOut.getV]
          unfold loopOut
          exact (hfcol r c hout).1
        · simp only [FilterOut.getW]
          unfold loopOut
          by_cases hp : dm % 2 = 0
          · rw [if_pos hp, copyView_out _ _ _ _ _ r c (by
              intro hcon
              have h1 := hcon.2.2.1
              have h2 := hcon.2.2.2
              omega)]
            exact (hfcol r c hout).2
          · rw [if_neg hp]
            exact (hfcol r c hout).2
      · rw [filter_assertFail_eq uplo N A V W VH VW WH WW start width deg
          degrees lambda lower upper sn dm hdm h0 hass] at h
        exact absurd h (by simp [FilterOut.isOk])

/-- Witness for C9 at a concrete input (column 3, outside `[0, 2)`). -/
theorem claim_C9_witness :
    FilterOut.getV (filter true 1 Acx Vcx Wcx 4 4 4 4 0 2 1 (some [1]) 3
        (-1) 1 false) 0 3 = Vcx 0 3
    ∧ FilterOut.getW (filter true 1 Acx Vcx Wcx 4 4 4 4 0 2 1 (some [1]) 3
        (-1) 1 false) 0 3 = Wcx 0 3 :=
  claim_C9_outside_columns_unchanged true 1 Acx Vcx Wcx 4 4 4 4 0 2 1
    (some [1]) 3 (-1) 1 false
    (fun ds hds => by injection hds with hh; subst hh; decide)
    (by decide) 3 (Or.inr (by decide)) 0

end EleChase
